import Mathlib

/-!
# Verification of `crypto/fipsmodule/bn/mul.c` (ring C fallback, as vendored by crust)

Shallow embedding of `OPENSSL_memset`, `bn_mul_normal` and `GFp_bn_mul_mont`.

* A `BN_ULONG` is `k` bytes wide (`k = sizeof(BN_ULONG)`), so the word base is
  `base k = 2 ^ (8 * k)`.  A `size_t` is `s` bytes wide (`s = sizeof(size_t)`).
* A buffer of words is a `List Nat`; a pointer into a buffer is a `Nat` offset.
* Every memory access is bounds checked and the embedding returns `Option`:
  `none` stands for an access outside the buffer (undefined behaviour in C).
* Multi-word integers are little-endian: `value B ws` is the integer denoted
  by the word list `ws` in base `B`.
-/

namespace BnMul

/-! ## Words, bytes and buffers -/

/-- Width in bits of a `BN_ULONG` that occupies `k` bytes. -/
def BN_BITS2 (k : Nat) : Nat := 8 * k

/-- The word base `B = 2 ^ w` of a `BN_ULONG` that occupies `k` bytes. -/
def base (k : Nat) : Nat := 2 ^ BN_BITS2 k

/-- Little-endian value of a digit list in base `B`. -/
def value (B : Nat) : List Nat → Nat
  | [] => 0
  | x :: xs => x + B * value B xs

/-- The low `n` base-`B` digits of `t`, least significant first. -/
def toWords (B : Nat) : Nat → Nat → List Nat
  | 0, _ => []
  | n + 1, t => t % B :: toWords B n (t / B)

/-- Every element of the buffer is a digit of base `B` (a machine word, or a byte). -/
def WordsOk (B : Nat) (ws : List Nat) : Prop := ∀ x ∈ ws, x < B

instance (B : Nat) (ws : List Nat) : Decidable (WordsOk B ws) := by
  unfold WordsOk; infer_instance

/-- Read `n` consecutive cells starting at offset `off`; `none` when the window
leaves the buffer. -/
def window (mem : List Nat) (off n : Nat) : Option (List Nat) :=
  if off + n ≤ mem.length then some ((mem.drop off).take n) else none

/-- Overwrite the cells `off .. off + ws.length` with `ws`; `none` when the
window leaves the buffer. -/
def store (mem : List Nat) (off : Nat) (ws : List Nat) : Option (List Nat) :=
  if off + ws.length ≤ mem.length then
    some (mem.take off ++ ws ++ mem.drop (off + ws.length))
  else none

/-- The C loop `for (i = lo; i < lo + n; i++) body`, on a state that the body may
fail to update (out-of-bounds access). The first argument after the body is the
number of iterations left, the second the current value of `i`. -/
def forLoop {σ : Type} (body : Nat → σ → Option σ) : Nat → Nat → σ → Option σ
  | 0, _, st => some st
  | n + 1, i, st => body i st >>= forLoop body n (i + 1)

/-- A buffer of `k`-byte words seen as bytes (little-endian object representation). -/
def wordsToBytes (k : Nat) (ws : List Nat) : List Nat :=
  (ws.map (toWords 256 k)).flatten

/-- A byte buffer seen as `k`-byte little-endian words. -/
def bytesToWords (k : Nat) (bs : List Nat) : List Nat :=
  (List.range (bs.length / k)).map (fun i => value 256 ((bs.drop (i * k)).take k))

/-! ## `OPENSSL_memset` (mul.c lines 5-18) -/

/-- The conversion `(size_t)v` of an `int`, for an `s`-byte `size_t`. -/
def toSizeT (s : Nat) (v : Int) : Nat := (v % (2 : Int) ^ (8 * s)).toNat

/-- The conversion `(uint8_t)v` of an `int`. -/
def toUInt8 (v : Int) : Nat := (v % 256).toNat

/-- `OPENSSL_memset(buff, v, sz)` on a byte buffer: first `sz / sizeof(size_t)`
stores of `(size_t)v` through a `size_t*`, then byte stores of `(uint8_t)v` for
the remaining offsets `end_idx .. sz`. -/
def OPENSSL_memset (s : Nat) (buff : List Nat) (v : Int) (sz : Nat) : Option (List Nat) := do
  -- size_t num_words = sz / sizeof(size_t);
  let num_words := sz / s
  -- for (size_t i = 0; i < num_words; i++) words[i] = (size_t)v;
  let buff ← forLoop (fun i m => store m (i * s) (toWords 256 s (toSizeT s v))) (num_words - 0) 0 buff
  -- size_t end_idx = num_words * sizeof(size_t);
  let end_idx := num_words * s
  -- for (size_t i = end_idx; i < sz; i++) bytes[i] = (uint8_t)v;
  forLoop (fun i m => store m i [toUInt8 v]) (sz - end_idx) end_idx buff

/-! ## The word primitives (external leaves) -/

/-- Modelled from the spec: `GFp_bn_mul_words(rp, ap, num, w)` is not part of
mul.c. It writes the low `num` words of `ap * w` to `rp[0 .. num)` and returns
the high word. `rp` is an offset into the result buffer `mem`. -/
def GFp_bn_mul_words (k : Nat) (mem : List Nat) (rp : Nat) (ap : List Nat) (num : Nat)
    (w : Nat) : Option (List Nat × Nat) := do
  let a ← window ap 0 num
  let t := value (base k) a * w
  let mem ← store mem rp (toWords (base k) num t)
  pure (mem, t / base k ^ num % base k)

/-- Modelled from the spec: `GFp_bn_mul_add_words(rp, ap, num, w)` is not part of
mul.c. It writes the low `num` words of `rp + ap * w` to `rp[0 .. num)` and
returns the carry word. `rp` is an offset into the result buffer `mem`. -/
def GFp_bn_mul_add_words (k : Nat) (mem : List Nat) (rp : Nat) (ap : List Nat) (num : Nat)
    (w : Nat) : Option (List Nat × Nat) := do
  let a ← window ap 0 num
  let r ← window mem rp num
  let t := value (base k) r + value (base k) a * w
  let mem ← store mem rp (toWords (base k) num t)
  pure (mem, t / base k ^ num % base k)

/-! ## `bn_mul_normal` (mul.c lines 20-58) -/

/-- The `for (;;)` loop of `bn_mul_normal` (lines 37-57). `mem` is the result
buffer, `r`, `rr` and `b0` are the current offsets of the pointers `r`, `rr` and
`b` into the result buffer and into the shorter operand `b`; `nb` is the counter.
`--nb` is a truncated subtraction: the counter is at least 1 whenever it is
decremented, so the `size_t` never wraps. -/
def bn_mul_normal_loop (k : Nat) (a : List Nat) (na : Nat) (b : List Nat)
    (mem : List Nat) (r rr b0 nb : Nat) : Option (List Nat) :=
  -- if (--nb == 0) return;
  if nb - 1 = 0 then some mem else do
  -- rr[1] = GFp_bn_mul_add_words(&(r[1]), a, na, b[1]);
  let w ← b[b0 + 1]?
  let (mem, c) ← GFp_bn_mul_add_words k mem (r + 1) a na w
  let mem ← store mem (rr + 1) [c]
  -- if (--nb == 0) return;
  if nb - 1 - 1 = 0 then some mem else do
  -- rr[2] = GFp_bn_mul_add_words(&(r[2]), a, na, b[2]);
  let w ← b[b0 + 2]?
  let (mem, c) ← GFp_bn_mul_add_words k mem (r + 2) a na w
  let mem ← store mem (rr + 2) [c]
  -- if (--nb == 0) return;
  if nb - 1 - 1 - 1 = 0 then some mem else do
  -- rr[3] = GFp_bn_mul_add_words(&(r[3]), a, na, b[3]);
  let w ← b[b0 + 3]?
  let (mem, c) ← GFp_bn_mul_add_words k mem (r + 3) a na w
  let mem ← store mem (rr + 3) [c]
  -- if (--nb == 0) return;
  if nb - 1 - 1 - 1 - 1 = 0 then some mem else do
  -- rr[4] = GFp_bn_mul_add_words(&(r[4]), a, na, b[4]);
  let w ← b[b0 + 4]?
  let (mem, c) ← GFp_bn_mul_add_words k mem (r + 4) a na w
  let mem ← store mem (rr + 4) [c]
  -- rr += 4; r += 4; b += 4;
  bn_mul_normal_loop k a na b mem (r + 4) (rr + 4) (b0 + 4) (nb - 1 - 1 - 1 - 1)
termination_by nb
decreasing_by omega

/-- Lines 30-57 of `bn_mul_normal`, entered once `a` is the longer operand. The
zero-length case hands the result buffer to `OPENSSL_memset` as bytes. -/
def bn_mul_normal_ordered (k s : Nat) (mem : List Nat) (a : List Nat) (na : Nat)
    (b : List Nat) (nb : Nat) : Option (List Nat) :=
  -- BN_ULONG *rr = &(r[na]);
  let rr := na
  -- if (nb == 0) { OPENSSL_memset(r, 0, na * sizeof(BN_ULONG)); return; }
  if nb = 0 then
    (OPENSSL_memset s (wordsToBytes k mem) 0 (na * k)).map (bytesToWords k)
  else do
    -- rr[0] = GFp_bn_mul_words(r, a, na, b[0]);
    let w ← b[0]?
    let (mem, c) ← GFp_bn_mul_words k mem 0 a na w
    let mem ← store mem (rr + 0) [c]
    bn_mul_normal_loop k a na b mem 0 rr 0 nb

/-- `bn_mul_normal(r, a, na, b, nb)`: `mem` is the buffer `r` points to (offset 0),
`a` and `b` are the operand buffers. Lines 22-29 swap the operands so that the
longer one is walked by the word primitives. Returns the buffer after the call. -/
def bn_mul_normal (k s : Nat) (mem : List Nat) (a : List Nat) (na : Nat)
    (b : List Nat) (nb : Nat) : Option (List Nat) :=
  if na < nb then bn_mul_normal_ordered k s mem b nb a na
  else bn_mul_normal_ordered k s mem a na b nb

/-- One column of the multiply: the statement
`rr[i] = GFp_bn_mul_add_words(&(r[i]), a, na, b[i])` of lines 41, 45, 49 and 53,
for pointers at offsets `r`, `rr` and `b0`. -/
def mulAddColumn (k : Nat) (a : List Nat) (na : Nat) (b : List Nat) (r rr b0 : Nat)
    (i : Nat) (mem : List Nat) : Option (List Nat) := do
  let w ← b[b0 + i]?
  let (mem, c) ← GFp_bn_mul_add_words k mem (r + i) a na w
  store mem (rr + i) [c]

/-- The unbatched, one-word-at-a-time description of the multiply (specification
section 4.1 step 3), for operands already in longer-first order: one call of
`GFp_bn_mul_words(r, a, na, b[0])` with the carry stored at `r[na]`, then for
`i = 1 .. nb - 1` one call of `GFp_bn_mul_add_words(r + i, a, na, b[i])` with the
carry stored at `r[i + na]`. -/
def bn_mul_normal_unbatched (k : Nat) (mem : List Nat) (a : List Nat) (na : Nat)
    (b : List Nat) (nb : Nat) : Option (List Nat) := do
  let w ← b[0]?
  let (mem, c) ← GFp_bn_mul_words k mem 0 a na w
  let mem ← store mem na [c]
  forLoop (fun i m => do
    let w ← b[i]?
    let (m, c) ← GFp_bn_mul_add_words k m i a na w
    store m (i + na) [c]) (nb - 1) 1 mem

/-! ## `GFp_bn_mul_mont` (mul.c lines 60-76) and its external leaves -/

/-- Modelled from the spec: `GFp_bn_mul_comba8(r, a, b)` is not part of mul.c.
It writes the exact 16-word product of the 8-word operands `a` and `b` to
`r[0 .. 16)`. -/
def GFp_bn_mul_comba8 (k : Nat) (r a b : List Nat) : Option (List Nat) := do
  let x ← window a 0 8
  let y ← window b 0 8
  store r 0 (toWords (base k) 16 (value (base k) x * value (base k) y))

/-- Modelled from the spec: `GFp_bn_sqr_comba8(r, a)` is not part of mul.c.
It writes the exact 16-word square of the 8-word operand `a` to `r[0 .. 16)`. -/
def GFp_bn_sqr_comba8 (k : Nat) (r a : List Nat) : Option (List Nat) := do
  let x ← window a 0 8
  store r 0 (toWords (base k) 16 (value (base k) x ^ 2))

/-- The inverse of `x` modulo `n`: the least `y < n` with `x * y = 1 (mod n)`,
and `0` when there is none. -/
def modInverse (x n : Nat) : Nat :=
  ((List.range n).find? (fun y => x * y % n = 1 % n)).getD 0

/-- Modelled from the spec: `GFp_bn_from_montgomery_in_place(r, num_r, a, num_a,
n, num_n, n0)` is not part of mul.c. It maps the `num_a`-word value `T` held in
`a` to `T * R⁻¹ mod N`, with `R = B ^ num_n` and `N` the `num_n`-word modulus,
and writes it to `r[0 .. num_r)`. The Montgomery constant `n0` is passed through. -/
def GFp_bn_from_montgomery_in_place (k : Nat) (r : List Nat) (num_r : Nat) (a : List Nat)
    (num_a : Nat) (n : List Nat) (num_n : Nat) (_n0 : Nat) : Option (List Nat) := do
  let t ← window a 0 num_a
  let m ← window n 0 num_n
  let N := value (base k) m
  store r 0 (toWords (base k) num_r (value (base k) t * modInverse (base k ^ num_n) N % N))

/-- One call made by `GFp_bn_mul_mont`, with the scratch buffer it is handed.
Operand buffers are named by their address. -/
inductive Call where
  | sqr_comba8 (r : List Nat) (a : Nat)
  | mul_comba8 (r : List Nat) (a b : Nat)
  | bn_mul_normal (r : List Nat) (a : Nat) (na : Nat) (b : Nat) (nb : Nat)
  | from_montgomery (num_r : Nat) (a : List Nat) (num_a : Nat) (n : Nat) (num_n : Nat) (n0 : Nat)
  deriving DecidableEq, Repr

/-- `GFp_bn_mul_mont(rp, ap, bp, np, n0, num)`. The operand pointers `ap`, `bp`,
`np` are addresses and `heap` gives the words readable at an address, so that
`ap == bp` is pointer identity. `rr0` is the indeterminate initial content of
the variable-length array `rr`, `rp` the content of the output buffer and `n0`
the word `n0[0]`. Returns the output buffer together with the calls made, in order. -/
def GFp_bn_mul_mont (k s : Nat) (heap : Nat → List Nat) (rr0 : List Nat) (rp : List Nat)
    (ap bp np : Nat) (n0 : Nat) (num : Nat) : Option (List Nat × List Call) := do
  -- BN_ULONG rr[num * 2]; OPENSSL_memset(rr, 0, num * 2 * sizeof(BN_ULONG));
  let rr ← (OPENSSL_memset s (wordsToBytes k rr0) 0 (num * 2 * k)).map (bytesToWords k)
  let (rr1, call) ←
    if num = 8 then
      if ap = bp then
        -- GFp_bn_sqr_comba8(rr, ap);
        (GFp_bn_sqr_comba8 k rr (heap ap)).map (fun m => (m, Call.sqr_comba8 rr ap))
      else
        -- GFp_bn_mul_comba8(rr, ap, bp);
        (GFp_bn_mul_comba8 k rr (heap ap) (heap bp)).map (fun m => (m, Call.mul_comba8 rr ap bp))
    else
      -- bn_mul_normal(rr, ap, num, bp, num);
      (bn_mul_normal k s rr (heap ap) num (heap bp) num).map
        (fun m => (m, Call.bn_mul_normal rr ap num bp num))
  -- GFp_bn_from_montgomery_in_place(rp, num, rr, num * 2, np, num, n0);
  let out ← GFp_bn_from_montgomery_in_place k rp num rr1 (num * 2) (heap np) num n0
  pure (out, [call, Call.from_montgomery num rr1 (num * 2) np num n0])

/-- The scratch buffer a call of `GFp_bn_mul_mont` is handed. -/
def Call.scratch : Call → List Nat
  | Call.sqr_comba8 r _ => r
  | Call.mul_comba8 r _ _ => r
  | Call.bn_mul_normal r _ _ _ _ => r
  | Call.from_montgomery _ a _ _ _ _ => a

/-! ## `bn_mul_normal` with a bound on the loop iterations and the `size_t` counter -/

/-- The decrement `--nb` of a `size_t` that is `s` bytes wide: it wraps from 0 to
`SIZE_MAX`. -/
def decSizeT (s : Nat) (n : Nat) : Nat := (n + 2 ^ (8 * s) - 1) % 2 ^ (8 * s)

/-- The `for (;;)` loop of `bn_mul_normal` (lines 37-57) run for at most `fuel`
iterations, with `--nb` as the wrapping `size_t` decrement. The outer `none` is
"still running after `fuel` iterations"; `some none` is an access outside a buffer
and `some (some mem)` is a return with result buffer `mem`. -/
def bn_mul_normal_loop_fuel (k s : Nat) (a : List Nat) (na : Nat) (b : List Nat) :
    Nat → List Nat → Nat → Nat → Nat → Nat → Option (Option (List Nat))
  | 0, _, _, _, _, _ => none
  | fuel + 1, mem, r, rr, b0, nb =>
    -- if (--nb == 0) return;
    let nb := decSizeT s nb
    if nb = 0 then some (some mem) else
    -- rr[1] = GFp_bn_mul_add_words(&(r[1]), a, na, b[1]);
    match mulAddColumn k a na b r rr b0 1 mem with
    | none => some none
    | some mem =>
    -- if (--nb == 0) return;
    let nb := decSizeT s nb
    if nb = 0 then some (some mem) else
    -- rr[2] = GFp_bn_mul_add_words(&(r[2]), a, na, b[2]);
    match mulAddColumn k a na b r rr b0 2 mem with
    | none => some none
    | some mem =>
    -- if (--nb == 0) return;
    let nb := decSizeT s nb
    if nb = 0 then some (some mem) else
    -- rr[3] = GFp_bn_mul_add_words(&(r[3]), a, na, b[3]);
    match mulAddColumn k a na b r rr b0 3 mem with
    | none => some none
    | some mem =>
    -- if (--nb == 0) return;
    let nb := decSizeT s nb
    if nb = 0 then some (some mem) else
    -- rr[4] = GFp_bn_mul_add_words(&(r[4]), a, na, b[4]);
    match mulAddColumn k a na b r rr b0 4 mem with
    | none => some none
    | some mem =>
    -- rr += 4; r += 4; b += 4;
    bn_mul_normal_loop_fuel k s a na b fuel mem (r + 4) (rr + 4) (b0 + 4) nb

/-- Lines 30-57 of `bn_mul_normal` with the bounded loop: the zero-length case and the
first column are as in `bn_mul_normal_ordered`. -/
def bn_mul_normal_ordered_fuel (k s fuel : Nat) (mem : List Nat) (a : List Nat) (na : Nat)
    (b : List Nat) (nb : Nat) : Option (Option (List Nat)) :=
  -- BN_ULONG *rr = &(r[na]);
  let rr := na
  -- if (nb == 0) { OPENSSL_memset(r, 0, na * sizeof(BN_ULONG)); return; }
  if nb = 0 then
    some ((OPENSSL_memset s (wordsToBytes k mem) 0 (na * k)).map (bytesToWords k))
  else
    -- rr[0] = GFp_bn_mul_words(r, a, na, b[0]);
    match (do
      let w ← b[0]?
      let (mem, c) ← GFp_bn_mul_words k mem 0 a na w
      store mem (rr + 0) [c]) with
    | none => some none
    | some mem => bn_mul_normal_loop_fuel k s a na b fuel mem 0 rr 0 nb

/-- `bn_mul_normal(r, a, na, b, nb)` with the bounded loop. -/
def bn_mul_normal_fuel (k s fuel : Nat) (mem : List Nat) (a : List Nat) (na : Nat)
    (b : List Nat) (nb : Nat) : Option (Option (List Nat)) :=
  if na < nb then bn_mul_normal_ordered_fuel k s fuel mem b nb a na
  else bn_mul_normal_ordered_fuel k s fuel mem a na b nb

/-! ## Concrete memories used to instantiate the theorems -/

/-- A memory with four 8-word buffers of 64-bit words: the buffers at addresses 0 and 1
are distinct and hold equal values, address 2 holds another operand and address 3 an odd
modulus. -/
def heap8 : Nat → List Nat
  | 0 => [1, 2, 3, 4, 5, 6, 7, 8]
  | 1 => [1, 2, 3, 4, 5, 6, 7, 8]
  | 2 => [18446744073709551615, 0, 9, 0, 0, 0, 0, 1]
  | _ => [97, 0, 0, 0, 0, 0, 0, 2]

/-- A memory with one-word buffers for the modulus `N = 97` and 64-bit words: address 0
holds `5 * 2^64 mod 97 = 14`, address 1 holds `6 * 2^64 mod 97 = 75` (the Montgomery
forms of 5 and 6) and every other address holds the modulus 97. -/
def heap97 : Nat → List Nat
  | 0 => [14]
  | 1 => [75]
  | _ => [97]

/-! ## Arithmetic of little-endian word lists -/

theorem toWords_length (B n t : Nat) : (toWords B n t).length = n := by
  induction n generalizing t with
  | zero => rfl
  | succ n ih => simp [toWords, ih]

theorem value_toWords (B n t : Nat) : value B (toWords B n t) = t % B ^ n := by
  induction n generalizing t with
  | zero => simp [toWords, value, Nat.mod_one]
  | succ n ih =>
    simp only [toWords, value, ih]
    rw [pow_succ, mul_comm (B ^ n) B, Nat.mod_mul]

theorem value_append (B : Nat) (xs ys : List Nat) :
    value B (xs ++ ys) = value B xs + B ^ xs.length * value B ys := by
  induction xs with
  | nil => simp [value]
  | cons x xs ih =>
    rw [List.cons_append, value, value, ih, List.length_cons, pow_succ]
    ring

theorem toWords_add (B m n t : Nat) :
    toWords B (m + n) t = toWords B m t ++ toWords B n (t / B ^ m) := by
  induction m generalizing t with
  | zero => simp [toWords]
  | succ m ih =>
    rw [show m + 1 + n = (m + n) + 1 by omega]
    simp only [toWords, ih, List.cons_append, pow_succ]
    rw [Nat.div_div_eq_div_mul, mul_comm B (B ^ m)]

theorem toWords_congr (B n t u : Nat) (h : t % B ^ n = u % B ^ n) :
    toWords B n t = toWords B n u := by
  induction n generalizing t u with
  | zero => rfl
  | succ n ih =>
    have e1 := Nat.mod_mul (x := t) (a := B) (b := B ^ n)
    have e2 := Nat.mod_mul (x := u) (a := B) (b := B ^ n)
    rw [pow_succ, mul_comm (B ^ n) B] at h
    have hm : t % B = u % B := by
      have := congrArg (· % B) h
      simpa [Nat.mod_mul_right_mod] using this
    simp only [toWords, hm]
    congr 1
    apply ih
    rw [e1, e2, hm] at h
    rcases Nat.eq_zero_or_pos B with hB | hB
    · subst hB; simp
    · exact Nat.eq_of_mul_eq_mul_left hB (Nat.add_left_cancel h)

theorem toWords_wordsOk (B n t : Nat) (hB : 0 < B) : WordsOk B (toWords B n t) := by
  induction n generalizing t with
  | zero => intro x hx; simp [toWords] at hx
  | succ n ih =>
    intro x hx
    simp only [toWords, List.mem_cons] at hx
    rcases hx with rfl | hx
    · exact Nat.mod_lt _ hB
    · exact ih _ x hx

theorem value_lt (B : Nat) (ws : List Nat) (h : WordsOk B ws) : value B ws < B ^ ws.length := by
  induction ws with
  | nil => simp [value]
  | cons x xs ih =>
    have hx : x < B := h x (List.mem_cons_self _ _)
    have hxs : value B xs < B ^ xs.length := ih (fun y hy => h y (List.mem_cons_of_mem _ hy))
    simp only [value, List.length_cons, pow_succ]
    nlinarith

theorem forLoop_zero {σ : Type} (body : Nat → σ → Option σ) (i : Nat) (st : σ) :
    forLoop body 0 i st = some st := rfl

theorem forLoop_succ {σ : Type} (body : Nat → σ → Option σ) (n i : Nat) (st : σ) :
    forLoop body (n + 1) i st = body i st >>= forLoop body n (i + 1) := rfl

theorem forLoop_shift {σ : Type} (body : Nat → σ → Option σ) (d n i : Nat) (st : σ) :
    forLoop (fun j => body (j + d)) n i st = forLoop body n (i + d) st := by
  induction n generalizing i st with
  | zero => rfl
  | succ n ih =>
    simp only [forLoop_succ]
    cases body (i + d) st with
    | none => rfl
    | some st1 =>
      simp only [Option.some_bind, Option.bind_eq_bind]
      rw [ih, show i + 1 + d = i + d + 1 by omega]

theorem forLoop_four {σ : Type} (body : Nat → σ → Option σ) (n i : Nat) (st : σ) :
    forLoop body (n + 4) i st =
      body i st >>= fun st => body (i + 1) st >>= fun st => body (i + 2) st >>= fun st =>
      body (i + 3) st >>= forLoop body n (i + 4) := rfl

theorem mulAddColumn_shift (k : Nat) (a : List Nat) (na : Nat) (b : List Nat) (r rr b0 d : Nat) :
    mulAddColumn k a na b (r + d) (rr + d) (b0 + d) = fun j => mulAddColumn k a na b r rr b0 (j + d) := by
  funext j m
  simp only [mulAddColumn]
  rw [show b0 + d + j = b0 + (j + d) by omega, show r + d + j = r + (j + d) by omega,
    show rr + d + j = rr + (j + d) by omega]

theorem bn_mul_normal_loop_unfold (k : Nat) (a : List Nat) (na : Nat) (b : List Nat)
    (mem : List Nat) (r rr b0 nb : Nat) :
    bn_mul_normal_loop k a na b mem r rr b0 nb =
      if nb - 1 = 0 then some mem else
      mulAddColumn k a na b r rr b0 1 mem >>= fun mem =>
      if nb - 1 - 1 = 0 then some mem else
      mulAddColumn k a na b r rr b0 2 mem >>= fun mem =>
      if nb - 1 - 1 - 1 = 0 then some mem else
      mulAddColumn k a na b r rr b0 3 mem >>= fun mem =>
      if nb - 1 - 1 - 1 - 1 = 0 then some mem else
      mulAddColumn k a na b r rr b0 4 mem >>= fun mem =>
      bn_mul_normal_loop k a na b mem (r + 4) (rr + 4) (b0 + 4) (nb - 1 - 1 - 1 - 1) := by
  rw [bn_mul_normal_loop]
  simp only [mulAddColumn, Option.bind_eq_bind, Option.bind_assoc]

theorem bn_mul_normal_loop_eq_forLoop (k : Nat) (a : List Nat) (na : Nat) (b : List Nat) :
    ∀ (nb : Nat) (mem : List Nat) (r rr b0 : Nat),
      bn_mul_normal_loop k a na b mem r rr b0 nb =
        forLoop (mulAddColumn k a na b r rr b0) (nb - 1) 1 mem := by
  intro nb
  induction nb using Nat.strong_induction_on with
  | _ nb ih =>
    intro mem r rr b0
    rw [bn_mul_normal_loop_unfold]
    rcases Nat.lt_or_ge nb 5 with h | h
    · have h5 : nb = 0 ∨ nb = 1 ∨ nb = 2 ∨ nb = 3 ∨ nb = 4 := by omega
      rcases h5 with rfl | rfl | rfl | rfl | rfl <;>
        simp [forLoop_succ, forLoop_zero]
    · obtain ⟨n, rfl⟩ : ∃ n, nb = n + 5 := ⟨nb - 5, by omega⟩
      have e : n + 5 - 1 = n + 1 + 1 + 1 + 1 := by omega
      have e4 : n + 5 - 1 - 1 - 1 - 1 = n + 1 := by omega
      have ih1 := fun m => ih (n + 1) (by omega) m (r + 4) (rr + 4) (b0 + 4)
      rw [e, forLoop_four]
      simp only [Nat.add_sub_cancel, Nat.succ_ne_zero, if_false, ih1, mulAddColumn_shift,
        forLoop_shift]

/-! ## Effect of the word primitives and of one column -/

theorem forLoop_inv {σ : Type} (P : Nat → σ → Prop) (body : Nat → σ → Option σ) (n lo : Nat)
    (st : σ) (h0 : P lo st)
    (hstep : ∀ i st, lo ≤ i → i < lo + n → P i st → ∃ st1, body i st = some st1 ∧ P (i + 1) st1) :
    ∃ st1, forLoop body n lo st = some st1 ∧ P (lo + n) st1 := by
  induction n generalizing lo st with
  | zero => exact ⟨st, rfl, h0⟩
  | succ n ih =>
    obtain ⟨st1, h1, hP1⟩ := hstep lo st (Nat.le_refl _) (by omega) h0
    obtain ⟨st2, h2, hP2⟩ := ih (lo + 1) st1 hP1
      (fun i st hi hlt hP => hstep i st (by omega) (by omega) hP)
    refine ⟨st2, ?_, ?_⟩
    · rw [forLoop_succ, h1]; exact h2
    · rw [show lo + (n + 1) = lo + 1 + n by omega]; exact hP2

theorem window_eq (mem : List Nat) (off n : Nat) (h : off + n ≤ mem.length) :
    window mem off n = some ((mem.drop off).take n) := by
  simp [window, h]

theorem store_eq (mem : List Nat) (off : Nat) (ws : List Nat) (h : off + ws.length ≤ mem.length) :
    store mem off ws = some (mem.take off ++ ws ++ mem.drop (off + ws.length)) := by
  simp [store, h]

theorem toWords_succ_last (B n t : Nat) :
    toWords B (n + 1) t = toWords B n t ++ [t / B ^ n % B] := by
  rw [toWords_add]; rfl

theorem GFp_bn_mul_words_eq (k : Nat) (mem : List Nat) (rp : Nat) (a : List Nat) (na w : Nat)
    (ha : na ≤ a.length) (hm : rp + na ≤ mem.length) :
    GFp_bn_mul_words k mem rp a na w =
      some (mem.take rp ++ toWords (base k) na (value (base k) (a.take na) * w)
              ++ mem.drop (rp + na),
            value (base k) (a.take na) * w / base k ^ na % base k) := by
  simp [GFp_bn_mul_words, window, store, ha, hm, toWords_length]

theorem GFp_bn_mul_add_words_eq (k : Nat) (mem : List Nat) (rp : Nat) (a : List Nat) (na w : Nat)
    (ha : na ≤ a.length) (hm : rp + na ≤ mem.length) :
    GFp_bn_mul_add_words k mem rp a na w =
      some (mem.take rp ++ toWords (base k) na
                (value (base k) ((mem.drop rp).take na) + value (base k) (a.take na) * w)
              ++ mem.drop (rp + na),
            (value (base k) ((mem.drop rp).take na) + value (base k) (a.take na) * w)
              / base k ^ na % base k) := by
  simp [GFp_bn_mul_add_words, window, store, ha, hm, toWords_length]

/-- Explicit effect of one column. -/
theorem mulAddColumn_eq (k : Nat) (a : List Nat) (na : Nat) (b : List Nat) (i w : Nat)
    (mem : List Nat) (ha : na ≤ a.length) (hb : b[i]? = some w) (hm : i + na + 1 ≤ mem.length) :
    mulAddColumn k a na b 0 na 0 i mem =
      some (mem.take i ++ toWords (base k) (na + 1)
                (value (base k) ((mem.drop i).take na) + value (base k) (a.take na) * w)
              ++ mem.drop (i + na + 1)) := by
  unfold mulAddColumn
  simp only [Nat.zero_add, hb, Option.bind_eq_bind, Option.some_bind]
  rw [GFp_bn_mul_add_words_eq k mem i a na w ha (by omega)]
  simp only [Option.some_bind]
  rw [store_eq]
  · simp only [toWords_succ_last, List.length_cons, List.length_nil]
    have hl : (mem.take i ++ toWords (base k) na
        (value (base k) ((mem.drop i).take na) + value (base k) (a.take na) * w)).length
          = na + i := by
      simp [toWords_length]; omega
    generalize toWords (base k) na
        (value (base k) ((mem.drop i).take na) + value (base k) (a.take na) * w) = ws at hl ⊢
    rw [List.take_left' hl, show na + i + (0 + 1) = (mem.take i ++ ws).length + 1 by omega,
      List.drop_append, List.drop_drop]
    simp
  · simp [toWords_length]; omega


theorem value_take_succ (B : Nat) (b : List Nat) (j w : Nat) (hb : b[j]? = some w) :
    value B (b.take (j + 1)) = value B (b.take j) + B ^ j * w := by
  have hj : j < b.length := by
    rcases Nat.lt_or_ge j b.length with h | h
    · exact h
    · rw [List.getElem?_eq_none h] at hb; cases hb
  rw [List.take_succ, hb, value_append, List.length_take, Nat.min_eq_left (Nat.le_of_lt hj)]
  simp [value]

/-- Appending one column to a product held in closed form. -/
theorem toWords_column (B j n V x : Nat) (hB : 0 < B) (hV : V < B ^ (j + n)) :
    toWords B j V ++ toWords B (n + 1) (value B (toWords B n (V / B ^ j)) + x)
      = toWords B (j + n + 1) (V + B ^ j * x) := by
  have hp : 0 < B ^ j := pow_pos hB j
  have hlt : V / B ^ j < B ^ n := by
    rw [Nat.div_lt_iff_lt_mul hp, ← pow_add, Nat.add_comm]
    exact hV
  have e1 : toWords B j (V + B ^ j * x) = toWords B j V :=
    toWords_congr _ _ _ _ (by rw [Nat.add_mul_mod_self_left])
  have e2 : (V + B ^ j * x) / B ^ j = V / B ^ j + x := Nat.add_mul_div_left _ _ hp
  rw [value_toWords, Nat.mod_eq_of_lt hlt, Nat.add_assoc j n 1, toWords_add B j (n + 1), e1, e2]

/-! ## Closed form of the multiply on well-formed operands -/

theorem getElem?_some_of_lt (b : List Nat) (i : Nat) (h : i < b.length) :
    ∃ w, b[i]? = some w := ⟨b[i], List.getElem?_eq_getElem h⟩

theorem three_parts (P Q T : List Nat) (i n : Nat) (hP : P.length = i) (hQ : Q.length = n) :
    (P ++ Q ++ T).take i = P ∧ ((P ++ Q ++ T).drop i).take n = Q ∧
      (P ++ Q ++ T).drop (i + n + 1) = T.drop 1 := by
  subst hP hQ
  refine ⟨?_, ?_, ?_⟩
  · rw [List.append_assoc, List.take_left]
  · rw [List.append_assoc, List.drop_left, List.take_left]
  · rw [show P.length + Q.length + 1 = (P ++ Q).length + 1 by simp, List.drop_append]

/-- One column applied to a buffer that holds a product in closed form. -/
theorem mulAddColumn_closed (k : Nat) (a : List Nat) (na : Nat) (b : List Nat) (i w V : Nat)
    (tail : List Nat) (ha : na ≤ a.length) (hb : b[i]? = some w) (ht : 0 < tail.length)
    (hV : V < base k ^ (i + na)) :
    mulAddColumn k a na b 0 na 0 i (toWords (base k) (i + na) V ++ tail) =
      some (toWords (base k) (i + na + 1) (V + base k ^ i * (value (base k) (a.take na) * w))
              ++ tail.drop 1) := by
  have hB : 0 < base k := pow_pos (by decide) _
  rw [mulAddColumn_eq k a na b i w _ ha hb (by simp [toWords_length]; omega)]
  rw [toWords_add]
  obtain ⟨h1, h2, h3⟩ := three_parts (toWords (base k) i V) (toWords (base k) na (V / base k ^ i))
    tail i na (toWords_length _ _ _) (toWords_length _ _ _)
  rw [h1, h2, h3, toWords_column _ _ _ _ _ hB hV]

/-- Closed form of the ordered multiply on well-formed operands. -/
theorem bn_mul_normal_ordered_eq (k s : Nat) (mem a : List Nat) (na : Nat) (b : List Nat)
    (nb : Nat) (hnb : 0 < nb) (ha : na ≤ a.length) (hb : nb ≤ b.length)
    (hm : na + nb ≤ mem.length) (hwa : WordsOk (base k) (a.take na))
    (hwb : WordsOk (base k) (b.take nb)) :
    bn_mul_normal_ordered k s mem a na b nb =
      some (toWords (base k) (na + nb) (value (base k) (a.take na) * value (base k) (b.take nb))
              ++ mem.drop (na + nb)) := by
  have hB : 0 < base k := pow_pos (by decide) _
  obtain ⟨w0, hw0⟩ := getElem?_some_of_lt b 0 (by omega)
  unfold bn_mul_normal_ordered
  simp only [Nat.pos_iff_ne_zero.mp hnb, if_false, hw0, Option.bind_eq_bind, Option.some_bind]
  rw [GFp_bn_mul_words_eq k mem 0 a na w0 ha (by omega)]
  simp only [Option.some_bind, List.take_zero, List.nil_append, Nat.zero_add, Nat.add_zero]
  rw [store_eq _ _ _ (by simp [toWords_length]; omega)]
  simp only [Option.some_bind, bn_mul_normal_loop_eq_forLoop]
  have hV : ∀ i, i ≤ nb → value (base k) (a.take na) * value (base k) (b.take i)
      < base k ^ (i + na) := by
    intro i hi
    have h1 := value_lt _ _ hwa
    have h2 : value (base k) (b.take i) < base k ^ i := by
      have hw : WordsOk (base k) (b.take i) := by
        intro x hx
        apply hwb x
        rw [← Nat.min_eq_left hi, ← List.take_take] at hx
        exact List.mem_of_mem_take hx
      have := value_lt _ _ hw
      rwa [List.length_take, Nat.min_eq_left (by omega)] at this
    rw [List.length_take, Nat.min_eq_left ha] at h1
    rw [pow_add, Nat.mul_comm (base k ^ i)]
    exact Nat.mul_lt_mul'' h1 h2
  have key := forLoop_inv
    (fun i m => i ≤ nb ∧ m = toWords (base k) (i + na)
        (value (base k) (a.take na) * value (base k) (b.take i)) ++ mem.drop (na + i))
    (mulAddColumn k a na b 0 na 0) (nb - 1) 1
    (toWords (base k) (1 + na) (value (base k) (a.take na) * value (base k) (b.take 1))
      ++ mem.drop (na + 1))
    ⟨hnb, rfl⟩
    (by
      rintro i m hi1 hi2 ⟨-, rfl⟩
      obtain ⟨w, hw⟩ := getElem?_some_of_lt b i (by omega)
      refine ⟨_, mulAddColumn_closed k a na b i w _ _ ha hw (by simp; omega)
        (hV i (by omega)), by omega, ?_⟩
      rw [value_take_succ _ _ _ _ hw, List.drop_drop]
      rw [show i + 1 + na = i + na + 1 by omega, show na + (i + 1) = na + i + 1 by omega,
        Nat.mul_add, Nat.mul_left_comm (base k ^ i)])
  obtain ⟨m1, hm1, -, rfl⟩ := key
  have e1 : value (base k) (a.take na) * value (base k) (b.take 1)
      = value (base k) (a.take na) * w0 := by
    rw [value_take_succ _ _ _ _ hw0]; simp [value]
  have hl : (toWords (base k) na (value (base k) (a.take na) * w0)).length = na :=
    toWords_length _ _ _
  rw [e1, Nat.add_comm 1 na, toWords_succ_last] at hm1
  have e2 : List.drop (na + [value (base k) (a.take na) * w0 / base k ^ na % base k].length)
      (toWords (base k) na (value (base k) (a.take na) * w0) ++ List.drop na mem)
        = List.drop (na + 1) mem := by
    rw [List.length_singleton]
    nth_rewrite 1 [← hl]
    rw [List.drop_append, List.drop_drop, Nat.add_comm]
  rw [List.take_left' hl, e2, hm1, show 1 + (nb - 1) = nb by omega, Nat.add_comm nb na]

/-! ## Success and frame of the multiply on arbitrary buffers -/

theorem splice_length (m X : List Nat) (off : Nat) (h : off + X.length ≤ m.length) :
    (m.take off ++ X ++ m.drop (off + X.length)).length = m.length := by
  simp only [List.length_append, List.length_take, List.length_drop]
  omega

theorem splice_drop (m X : List Nat) (off d : Nat) (h : off + X.length ≤ m.length)
    (hd : off + X.length ≤ d) :
    (m.take off ++ X ++ m.drop (off + X.length)).drop d = m.drop d := by
  have hl : (m.take off ++ X).length = off + X.length := by
    simp only [List.length_append, List.length_take]; omega
  obtain ⟨e, rfl⟩ : ∃ e, d = (m.take off ++ X).length + e := ⟨d - (off + X.length), by omega⟩
  rw [List.drop_append, List.drop_drop, hl]

theorem store_frame (m X : List Nat) (off : Nat) (h : off + X.length ≤ m.length) :
    ∃ m1, store m off X = some m1 ∧ m1.length = m.length ∧
      ∀ d, off + X.length ≤ d → m1.drop d = m.drop d :=
  ⟨_, store_eq m off X h, splice_length m X off h, fun d hd => splice_drop m X off d h hd⟩

theorem mulAddColumn_frame (k : Nat) (a : List Nat) (na : Nat) (b : List Nat) (i : Nat)
    (m : List Nat) (ha : na ≤ a.length) (hb : i < b.length) (hm : i + na + 1 ≤ m.length) :
    ∃ m1, mulAddColumn k a na b 0 na 0 i m = some m1 ∧ m1.length = m.length ∧
      ∀ d, i + na + 1 ≤ d → m1.drop d = m.drop d := by
  obtain ⟨w, hw⟩ := getElem?_some_of_lt b i hb
  rw [mulAddColumn_eq k a na b i w m ha hw hm]
  have hX : i + (toWords (base k) (na + 1)
      (value (base k) ((m.drop i).take na) + value (base k) (a.take na) * w)).length
        = i + na + 1 := by rw [toWords_length]; omega
  refine ⟨_, rfl, ?_, ?_⟩
  · rw [← hX]; exact splice_length m _ i (by omega)
  · intro d hd
    rw [← hX] at hd ⊢
    exact splice_drop m _ i d (by omega) hd

theorem GFp_bn_mul_words_frame (k : Nat) (mem a : List Nat) (na w : Nat) (ha : na ≤ a.length)
    (hm : na ≤ mem.length) :
    ∃ m1 c, GFp_bn_mul_words k mem 0 a na w = some (m1, c) ∧ m1.length = mem.length ∧
      ∀ d, na ≤ d → m1.drop d = mem.drop d := by
  have hX : (toWords (base k) na (value (base k) (a.take na) * w)).length = na :=
    toWords_length _ _ _
  refine ⟨_, _, GFp_bn_mul_words_eq k mem 0 a na w ha (by omega), ?_, ?_⟩
  · have h1 := splice_length mem (toWords (base k) na (value (base k) (a.take na) * w)) 0
      (by omega)
    rwa [hX] at h1
  · intro d hd
    have h1 := splice_drop mem (toWords (base k) na (value (base k) (a.take na) * w)) 0 d
      (by omega) (by omega)
    rwa [hX] at h1

/-- The ordered multiply succeeds on buffers that are large enough, keeps the
length of the result buffer and changes no word at index `na + nb` or above. -/
theorem bn_mul_normal_ordered_frame (k s : Nat) (mem a : List Nat) (na : Nat) (b : List Nat)
    (nb : Nat) (hnb : 0 < nb) (ha : na ≤ a.length) (hb : nb ≤ b.length)
    (hm : na + nb ≤ mem.length) :
    ∃ m1, bn_mul_normal_ordered k s mem a na b nb = some m1 ∧ m1.length = mem.length ∧
      m1.drop (na + nb) = mem.drop (na + nb) := by
  obtain ⟨w0, hw0⟩ := getElem?_some_of_lt b 0 (by omega)
  unfold bn_mul_normal_ordered
  simp only [Nat.pos_iff_ne_zero.mp hnb, if_false, hw0, Option.bind_eq_bind, Option.some_bind]
  obtain ⟨m0, c0, hs0, hl0, hd0⟩ := GFp_bn_mul_words_frame k mem a na w0 ha (by omega)
  rw [hs0]
  simp only [Option.some_bind, Nat.add_zero]
  obtain ⟨m1, hs1, hl1, hd1⟩ := store_frame m0 [c0] na
    (by rw [hl0, List.length_singleton]; omega)
  rw [hs1]
  simp only [Option.some_bind, bn_mul_normal_loop_eq_forLoop]
  have key := forLoop_inv
    (fun i m => m.length = mem.length ∧ m.drop (na + nb) = mem.drop (na + nb))
    (mulAddColumn k a na b 0 na 0) (nb - 1) 1 m1
    ⟨by rw [hl1, hl0], by
      rw [hd1 _ (by rw [List.length_singleton]; omega), hd0 _ (by omega)]⟩
    (by
      rintro i m hi1 hi2 ⟨hl, hd⟩
      obtain ⟨m2, h2, hl2, hd2⟩ := mulAddColumn_frame k a na b i m ha (by omega) (by omega)
      exact ⟨m2, h2, by rw [hl2, hl], by rw [hd2 _ (by omega), hd]⟩)
  obtain ⟨m2, h2, hl2, hd2⟩ := key
  exact ⟨m2, h2, hl2, hd2⟩

/-! ## Zero fill by OPENSSL_memset -/

theorem toWords_zero (B n : Nat) : toWords B n 0 = List.replicate n 0 := by
  induction n with
  | zero => rfl
  | succ n ih => simp [toWords, ih, List.replicate_succ]

theorem store_zero_splice (buff : List Nat) (p n : Nat) (h : p + n ≤ buff.length) :
    store (List.replicate p 0 ++ buff.drop p) p (List.replicate n 0) =
      some (List.replicate (p + n) 0 ++ buff.drop (p + n)) := by
  have hl : (List.replicate p (0 : Nat)).length = p := List.length_replicate _ _
  rw [store_eq _ _ _ (by simp; omega), List.take_left' hl, List.length_replicate]
  nth_rewrite 2 [← hl]
  rw [List.drop_append, List.drop_drop, List.replicate_add]

/-- Zero fill: `OPENSSL_memset(buff, 0, sz)` zeroes the first `sz` bytes and leaves
the others as they were. -/
theorem OPENSSL_memset_zero (s : Nat) (buff : List Nat) (sz : Nat) (h : sz ≤ buff.length) :
    OPENSSL_memset s buff 0 sz = some (List.replicate sz 0 ++ buff.drop sz) := by
  have hle : sz / s * s ≤ sz := Nat.div_mul_le_self sz s
  have hz : toWords 256 s (toSizeT s 0) = List.replicate s 0 := by
    simp [toSizeT, toWords_zero]
  obtain ⟨m1, h1, hP1⟩ := forLoop_inv
    (fun i m => i ≤ sz / s ∧ m = List.replicate (i * s) 0 ++ buff.drop (i * s))
    (fun i m => store m (i * s) (toWords 256 s (toSizeT s 0))) (sz / s) 0 buff
    ⟨Nat.zero_le _, by simp⟩
    (by
      rintro i m - hi ⟨-, rfl⟩
      have hi1 : (i + 1) * s ≤ sz / s * s := Nat.mul_le_mul_right s (by omega)
      refine ⟨_, ?_, by omega, rfl⟩
      show store _ _ _ = _
      rw [hz, store_zero_splice buff (i * s) s (by rw [Nat.add_mul] at hi1; omega), Nat.add_mul,
        Nat.one_mul])
  obtain ⟨m2, h2, hP2⟩ := forLoop_inv
    (fun i m => i ≤ sz ∧ m = List.replicate i 0 ++ buff.drop i)
    (fun i m => store m i [toUInt8 0]) (sz - sz / s * s) (sz / s * s) m1
    ⟨hle, by rw [Nat.zero_add] at hP1; exact hP1.2⟩
    (by
      rintro i m - hi ⟨-, rfl⟩
      refine ⟨_, ?_, by omega, rfl⟩
      exact store_zero_splice buff i 1 (by omega))
  unfold OPENSSL_memset
  simp only [Nat.sub_zero, Option.bind_eq_bind]
  rw [h1, Option.some_bind, h2, hP2.2, Nat.add_sub_cancel' hle]

/-! ## The byte view of a word buffer and the zero-length case -/

theorem base_eq (k : Nat) : base k = 256 ^ k := by
  unfold base BN_BITS2
  rw [pow_mul]
  norm_num

theorem wordsToBytes_cons (k w : Nat) (ws : List Nat) :
    wordsToBytes k (w :: ws) = toWords 256 k w ++ wordsToBytes k ws := by
  simp [wordsToBytes]

theorem wordsToBytes_length (k : Nat) (ws : List Nat) :
    (wordsToBytes k ws).length = ws.length * k := by
  induction ws with
  | nil => simp [wordsToBytes]
  | cons w ws ih =>
    rw [wordsToBytes_cons, List.length_append, toWords_length, ih, List.length_cons]
    ring

theorem wordsToBytes_drop (k n : Nat) (ws : List Nat) :
    (wordsToBytes k ws).drop (n * k) = wordsToBytes k (ws.drop n) := by
  induction n generalizing ws with
  | zero => simp
  | succ n ih =>
    cases ws with
    | nil => simp [wordsToBytes]
    | cons w ws =>
      rw [wordsToBytes_cons, List.drop_succ_cons, ← ih]
      have hl : (toWords 256 k w).length = k := toWords_length _ _ _
      rw [show (n + 1) * k = (toWords 256 k w).length + n * k by rw [hl]; ring, List.drop_append]

theorem bytesToWords_chunk (k : Nat) (chunk rest : List Nat) (hk : 0 < k)
    (hc : chunk.length = k) :
    bytesToWords k (chunk ++ rest) = value 256 chunk :: bytesToWords k rest := by
  unfold bytesToWords
  have hlen : (chunk ++ rest).length / k = rest.length / k + 1 := by
    rw [List.length_append, hc, Nat.add_comm, Nat.add_div_right _ hk]
  rw [hlen, List.range_succ_eq_map, List.map_cons, List.map_map]
  congr 1
  · rw [Nat.zero_mul, List.drop_zero, ← hc, List.take_left]
  · apply List.map_congr_left
    intro i _
    show value 256 (List.take k (List.drop ((i + 1) * k) (chunk ++ rest))) = _
    rw [show (i + 1) * k = chunk.length + i * k by rw [hc]; ring, List.drop_append]

theorem bytesToWords_wordsToBytes (k : Nat) (ws : List Nat) (hk : 0 < k) :
    bytesToWords k (wordsToBytes k ws) = ws.map (fun x => x % base k) := by
  induction ws with
  | nil => simp [wordsToBytes, bytesToWords]
  | cons w ws ih =>
    rw [wordsToBytes_cons, bytesToWords_chunk k _ _ hk (toWords_length _ _ _), ih, value_toWords,
      List.map_cons, base_eq]

theorem bytesToWords_zeros (k n : Nat) (rest : List Nat) (hk : 0 < k) :
    bytesToWords k (List.replicate (n * k) 0 ++ rest) =
      List.replicate n 0 ++ bytesToWords k rest := by
  induction n with
  | zero => simp
  | succ n ih =>
    rw [show (n + 1) * k = k + n * k by ring, List.replicate_add, List.append_assoc,
      bytesToWords_chunk k _ _ hk (List.length_replicate _ _), ih, List.replicate_succ,
      ← toWords_zero 256 k, value_toWords]
    simp

theorem map_mod_of_wordsOk (B : Nat) (ws : List Nat) (h : WordsOk B ws) :
    ws.map (fun x => x % B) = ws := by
  induction ws with
  | nil => rfl
  | cons w ws ih =>
    rw [List.map_cons, Nat.mod_eq_of_lt (h w (List.mem_cons_self _ _)),
      ih (fun y hy => h y (List.mem_cons_of_mem _ hy))]

/-- The zero-length case of the ordered multiply: the first `na` words are zeroed and
the other words go through the byte view unchanged (reduced to word size). -/
theorem bn_mul_normal_ordered_zero (k s : Nat) (mem a : List Nat) (na : Nat) (b : List Nat)
    (hk : 0 < k) (hm : na ≤ mem.length) :
    bn_mul_normal_ordered k s mem a na b 0 =
      some (List.replicate na 0 ++ (mem.drop na).map (fun x => x % base k)) := by
  unfold bn_mul_normal_ordered
  simp only [if_true]
  rw [OPENSSL_memset_zero s _ _ (by rw [wordsToBytes_length]; exact Nat.mul_le_mul_right k hm)]
  rw [Option.map_some', wordsToBytes_drop, bytesToWords_zeros _ _ _ hk,
    bytesToWords_wordsToBytes _ _ hk]

/-! ## Closed form and frame of bn_mul_normal -/

theorem base_pos (k : Nat) : 0 < base k := pow_pos (by decide) _

theorem value_replicate_zero (B n : Nat) : value B (List.replicate n 0) = 0 := by
  induction n with
  | zero => rfl
  | succ n ih => simp [List.replicate_succ, value, ih]

/-- The ordered multiply, all lengths: the first `na + nb` words of the result are the
words of the product, whatever the result buffer held before. -/
theorem bn_mul_normal_ordered_take (k s : Nat) (mem a : List Nat) (na : Nat) (b : List Nat)
    (nb : Nat) (hk : 0 < k) (ha : na ≤ a.length) (hb : nb ≤ b.length)
    (hm : na + nb ≤ mem.length) (hwa : WordsOk (base k) (a.take na))
    (hwb : WordsOk (base k) (b.take nb)) :
    ∃ m1, bn_mul_normal_ordered k s mem a na b nb = some m1 ∧
      m1.take (na + nb) = toWords (base k) (na + nb)
        (value (base k) (a.take na) * value (base k) (b.take nb)) := by
  rcases Nat.eq_zero_or_pos nb with h0 | hpos
  · subst h0
    refine ⟨_, bn_mul_normal_ordered_zero k s mem a na b hk (by omega), ?_⟩
    rw [Nat.add_zero, List.take_left' (List.length_replicate _ _)]
    simp [value, toWords_zero]
  · refine ⟨_, bn_mul_normal_ordered_eq k s mem a na b nb hpos ha hb hm hwa hwb, ?_⟩
    rw [List.take_left' (toWords_length _ _ _)]

/-- Closed form of `bn_mul_normal`: the first `na + nb` words of the result are the
words of the product, whatever the result buffer held before. -/
theorem bn_mul_normal_take (k s : Nat) (mem a : List Nat) (na : Nat) (b : List Nat)
    (nb : Nat) (hk : 0 < k) (ha : na ≤ a.length) (hb : nb ≤ b.length)
    (hm : na + nb ≤ mem.length) (hwa : WordsOk (base k) (a.take na))
    (hwb : WordsOk (base k) (b.take nb)) :
    ∃ m1, bn_mul_normal k s mem a na b nb = some m1 ∧
      m1.take (na + nb) = toWords (base k) (na + nb)
        (value (base k) (a.take na) * value (base k) (b.take nb)) := by
  unfold bn_mul_normal
  split
  · obtain ⟨m1, h1, h2⟩ := bn_mul_normal_ordered_take k s mem b nb a na hk hb ha (by omega) hwb hwa
    exact ⟨m1, h1, by rw [Nat.add_comm na nb, Nat.mul_comm, h2]⟩
  · exact bn_mul_normal_ordered_take k s mem a na b nb hk ha hb hm hwa hwb

theorem value_mul_lt (B : Nat) (a b : List Nat) (hwa : WordsOk B a) (hwb : WordsOk B b) :
    value B a * value B b < B ^ (a.length + b.length) := by
  rw [pow_add]
  exact Nat.mul_lt_mul'' (value_lt _ _ hwa) (value_lt _ _ hwb)

/-- Success and frame of `bn_mul_normal` for buffers that are large enough. The words
above `na + nb` go through the byte view only in the zero-length case, where they
are reduced to word size. -/
theorem bn_mul_normal_frame (k s : Nat) (mem a : List Nat) (na : Nat) (b : List Nat)
    (nb : Nat) (hk : 0 < k) (ha : na ≤ a.length) (hb : nb ≤ b.length)
    (hm : na + nb ≤ mem.length) :
    ∃ m1, bn_mul_normal k s mem a na b nb = some m1 ∧ m1.length = mem.length ∧
      (0 < min na nb → m1.drop (na + nb) = mem.drop (na + nb)) ∧
      (min na nb = 0 → m1 = List.replicate (max na nb) 0
          ++ (mem.drop (max na nb)).map (fun x => x % base k)) := by
  have zero_case : ∀ (x y : List Nat) (n : Nat), n ≤ mem.length →
      ∃ m1, bn_mul_normal_ordered k s mem x n y 0 = some m1 ∧ m1.length = mem.length ∧
        m1 = List.replicate n 0 ++ (mem.drop n).map (fun x => x % base k) := by
    intro x y n hn
    refine ⟨_, bn_mul_normal_ordered_zero k s mem x n y hk hn, ?_, rfl⟩
    simp only [List.length_append, List.length_replicate, List.length_map, List.length_drop]
    omega
  unfold bn_mul_normal
  split
  · rcases Nat.eq_zero_or_pos na with h0 | hpos
    · subst h0
      obtain ⟨m1, h1, h2, h3⟩ := zero_case b a nb (by omega)
      exact ⟨m1, h1, h2, fun h => by simp at h, fun _ => by simpa using h3⟩
    · obtain ⟨m1, h1, h2, h3⟩ := bn_mul_normal_ordered_frame k s mem b nb a na hpos hb ha (by omega)
      exact ⟨m1, h1, h2, fun _ => by rw [Nat.add_comm na nb]; exact h3, fun h => by
        rw [Nat.min_def] at h; split at h <;> omega⟩
  · rcases Nat.eq_zero_or_pos nb with h0 | hpos
    · subst h0
      obtain ⟨m1, h1, h2, h3⟩ := zero_case a b na (by omega)
      exact ⟨m1, h1, h2, fun h => by simp at h, fun _ => by simpa using h3⟩
    · obtain ⟨m1, h1, h2, h3⟩ := bn_mul_normal_ordered_frame k s mem a na b nb hpos ha hb hm
      exact ⟨m1, h1, h2, fun _ => h3, fun h => by
        rw [Nat.min_def] at h; split at h <;> omega⟩

/-! ## Arithmetic of the all-ones product -/

theorem toWords_getElem? (B n V i : Nat) (hi : i < n) :
    (toWords B n V)[i]? = some (V / B ^ i % B) := by
  induction n generalizing V i with
  | zero => omega
  | succ n ih =>
    cases i with
    | zero => simp [toWords]
    | succ i =>
      rw [toWords, List.getElem?_cons_succ, ih _ _ (by omega), Nat.div_div_eq_div_mul, pow_succ,
        Nat.mul_comm]

theorem value_replicate_max (B n : Nat) (hB : 0 < B) :
    value B (List.replicate n (B - 1)) = B ^ n - 1 := by
  induction n with
  | zero => simp [value]
  | succ n ih =>
    have hp : 0 < B ^ n := pow_pos hB n
    rw [List.replicate_succ, value, ih, pow_succ]
    obtain ⟨c, rfl⟩ : ∃ c, B = c + 1 := ⟨B - 1, by omega⟩
    obtain ⟨p, hp1⟩ : ∃ p, (c + 1) ^ n = p + 1 := ⟨(c + 1) ^ n - 1, by omega⟩
    rw [hp1]
    simp only [Nat.add_sub_cancel]
    have : (p + 1) * (c + 1) = (c + (c + 1) * p) + 1 := by ring
    omega

theorem all_ones_product (x z : Nat) (hx : 2 ≤ x) (hz : 2 ≤ z) :
    (x - 1) * (z - 1) = x * z - x - z + 1 := by
  obtain ⟨p, rfl⟩ : ∃ p, x = p + 2 := ⟨x - 2, by omega⟩
  obtain ⟨q, rfl⟩ : ∃ q, z = q + 2 := ⟨z - 2, by omega⟩
  have h : (p + 2) * (q + 2) = (p + 1) * (q + 1) + p + q + 3 := by ring
  rw [h, show p + 2 - 1 = p + 1 by omega, show q + 2 - 1 = q + 1 by omega]
  have ht : 0 < (p + 1) * (q + 1) := Nat.mul_pos (by omega) (by omega)
  clear h hx hz
  generalize (p + 1) * (q + 1) = t at ht ⊢
  omega

/-- Top word of `(B^n - 1) * (B - 1)`, the all-ones product with a one-word operand. -/
theorem top_word_one (B n : Nat) (hB : 2 ≤ B) (hn : 1 ≤ n) :
    (B ^ n - 1) * (B - 1) / B ^ n % B = B - 2 := by
  have hp : B ≤ B ^ n := by
    calc B = B ^ 1 := (pow_one B).symm
      _ ≤ B ^ n := Nat.pow_le_pow_right (by omega) hn
  obtain ⟨c, rfl⟩ : ∃ c, B = c + 2 := ⟨B - 2, by omega⟩
  obtain ⟨y, hy⟩ : ∃ y, (c + 2) ^ n = y + 1 := ⟨(c + 2) ^ n - 1, by omega⟩
  have hd : (y + 1 - 1) * (c + 2 - 1) / (y + 1) = c := by
    apply Nat.div_eq_of_lt_le
    · simp only [Nat.add_sub_cancel]
      have : c ≤ y := by omega
      show c * (y + 1) ≤ y * (c + 2 - 1)
      rw [show c + 2 - 1 = c + 1 by omega]
      nlinarith
    · simp only [Nat.add_sub_cancel]
      rw [show c + 2 - 1 = c + 1 by omega]
      show y * (c + 1) < (c + 1) * (y + 1)
      nlinarith
  rw [hy, hd, Nat.add_sub_cancel, Nat.mod_eq_of_lt (by omega)]

/-- Top word of `(B^m - 1) * (B^n - 1)` when both operands have at least two words. -/
theorem top_word_two (B m n : Nat) (hB : 2 ≤ B) (hm : 2 ≤ m) (hn : 2 ≤ n) :
    (B ^ m - 1) * (B ^ n - 1) / B ^ (m + n - 1) % B = B - 1 := by
  obtain ⟨m, rfl⟩ : ∃ i, m = i + 1 := ⟨m - 1, by omega⟩
  obtain ⟨n, rfl⟩ : ∃ i, n = i + 1 := ⟨n - 1, by omega⟩
  have hx : 2 ≤ B ^ m := by
    calc 2 ≤ B := hB
      _ = B ^ 1 := (pow_one B).symm
      _ ≤ B ^ m := Nat.pow_le_pow_right (by omega) (by omega)
  have hz : 2 ≤ B ^ n := by
    calc 2 ≤ B := hB
      _ = B ^ 1 := (pow_one B).symm
      _ ≤ B ^ n := Nat.pow_le_pow_right (by omega) (by omega)
  have hD : B ^ (m + 1 + (n + 1) - 1) = B * (B ^ m * B ^ n) := by
    rw [show m + 1 + (n + 1) - 1 = (m + n) + 1 by omega, pow_succ, pow_add]; ring
  rw [hD, pow_succ, pow_succ]
  generalize B ^ m = x at hx
  generalize B ^ n = z at hz
  obtain ⟨c, rfl⟩ : ∃ c, B = c + 2 := ⟨B - 2, by omega⟩
  obtain ⟨u, rfl⟩ : ∃ u, x = u + 2 := ⟨x - 2, by omega⟩
  obtain ⟨v, rfl⟩ : ∃ v, z = v + 2 := ⟨z - 2, by omega⟩
  have hp0 : 0 < (u + 2) * (c + 2) := Nat.mul_pos (by omega) (by omega)
  have hq0 : 0 < (v + 2) * (c + 2) := Nat.mul_pos (by omega) (by omega)
  obtain ⟨p, hp⟩ : ∃ p, (u + 2) * (c + 2) = p + 1 := ⟨(u + 2) * (c + 2) - 1, by omega⟩
  obtain ⟨q, hq⟩ : ∃ q, (v + 2) * (c + 2) = q + 1 := ⟨(v + 2) * (c + 2) - 1, by omega⟩
  have hd : p * q / ((c + 2) * ((u + 2) * (v + 2))) = c + 1 := by
    apply Nat.div_eq_of_lt_le
    · nlinarith
    · nlinarith
  rw [hp, hq, Nat.add_sub_cancel, Nat.add_sub_cancel, hd, Nat.mod_eq_of_lt (by omega)]
  omega

theorem two_le_base (k : Nat) (hk : 0 < k) : 2 ≤ base k := by
  unfold base BN_BITS2
  calc 2 = 2 ^ 1 := rfl
    _ ≤ 2 ^ (8 * k) := Nat.pow_le_pow_right (by decide) (by omega)

theorem wordsOk_replicate (B n x : Nat) (hx : x < B) : WordsOk B (List.replicate n x) := by
  intro y hy
  rw [List.eq_of_mem_replicate hy]
  exact hx

/-! ## Generic multiply: correctness, commutativity, zero length, all-ones boundary -/

/-- C1. Numeric correctness of `bn_mul_normal`: for an `na`-word `A` and an `nb`-word
`B` (words below the base `2 ^ w`) and a zero-initialised result buffer of at least
`na + nb` words, the call returns and the first `na + nb` words of the result, read
little-endian, have value exactly `value A * value B`. -/
theorem bn_mul_normal_correct (k s : Nat) (a b : List Nat) (na nb len : Nat) (hk : 0 < k)
    (ha : a.length = na) (hb : b.length = nb) (hwa : WordsOk (base k) a)
    (hwb : WordsOk (base k) b) (hlen : na + nb ≤ len) :
    ∃ r, bn_mul_normal k s (List.replicate len 0) a na b nb = some r ∧
      value (base k) (r.take (na + nb)) = value (base k) a * value (base k) b := by
  have hta : a.take na = a := by rw [← ha, List.take_length]
  have htb : b.take nb = b := by rw [← hb, List.take_length]
  obtain ⟨r, h1, h2⟩ := bn_mul_normal_take k s (List.replicate len 0) a na b nb hk (by omega)
    (by omega) (by simpa using hlen) (by rwa [hta]) (by rwa [htb])
  refine ⟨r, h1, ?_⟩
  rw [h2, value_toWords, hta, htb, Nat.mod_eq_of_lt]
  have := value_mul_lt (base k) a b hwa hwb
  rwa [ha, hb] at this

theorem bn_mul_normal_correct_witness :
    (0 < 8 ∧ [18446744073709551615, 5].length = 2 ∧ [7, 18446744073709551615, 1].length = 3 ∧
      WordsOk (base 8) [18446744073709551615, 5] ∧
      WordsOk (base 8) [7, 18446744073709551615, 1] ∧ 2 + 3 ≤ 6) ∧
    ∃ r, bn_mul_normal 8 8 (List.replicate 6 0) [18446744073709551615, 5] 2
        [7, 18446744073709551615, 1] 3 = some r ∧
      value (base 8) (r.take (2 + 3)) = value (base 8) [18446744073709551615, 5]
        * value (base 8) [7, 18446744073709551615, 1] :=
  ⟨by decide, bn_mul_normal_correct 8 8 _ _ 2 3 6 (by decide) rfl rfl (by decide) (by decide)
    (by decide)⟩

/-- C2. Commutativity of `bn_mul_normal`: on the same zero-initialised result buffer,
`bn_mul_normal(r, A, na, B, nb)` and `bn_mul_normal(r, B, nb, A, na)` both return and
leave identical word sequences in the first `na + nb` words of `r`. -/
theorem bn_mul_normal_comm (k s : Nat) (a b : List Nat) (na nb len : Nat) (hk : 0 < k)
    (ha : a.length = na) (hb : b.length = nb) (hwa : WordsOk (base k) a)
    (hwb : WordsOk (base k) b) (hlen : na + nb ≤ len) :
    ∃ r1 r2, bn_mul_normal k s (List.replicate len 0) a na b nb = some r1 ∧
      bn_mul_normal k s (List.replicate len 0) b nb a na = some r2 ∧
      r1.take (na + nb) = r2.take (na + nb) := by
  have hta : a.take na = a := by rw [← ha, List.take_length]
  have htb : b.take nb = b := by rw [← hb, List.take_length]
  obtain ⟨r1, h1, e1⟩ := bn_mul_normal_take k s (List.replicate len 0) a na b nb hk (by omega)
    (by omega) (by simpa using hlen) (by rwa [hta]) (by rwa [htb])
  obtain ⟨r2, h2, e2⟩ := bn_mul_normal_take k s (List.replicate len 0) b nb a na hk (by omega)
    (by omega) (by simpa [Nat.add_comm] using hlen) (by rwa [htb]) (by rwa [hta])
  refine ⟨r1, r2, h1, h2, ?_⟩
  rw [e1, Nat.add_comm na nb, e2, Nat.mul_comm]

theorem bn_mul_normal_comm_witness :
    (0 < 8 ∧ [3, 18446744073709551615].length = 2 ∧ [9, 0, 18446744073709551615].length = 3 ∧
      WordsOk (base 8) [3, 18446744073709551615] ∧
      WordsOk (base 8) [9, 0, 18446744073709551615] ∧ 2 + 3 ≤ 5) ∧
    ∃ r1 r2, bn_mul_normal 8 8 (List.replicate 5 0) [3, 18446744073709551615] 2
        [9, 0, 18446744073709551615] 3 = some r1 ∧
      bn_mul_normal 8 8 (List.replicate 5 0) [9, 0, 18446744073709551615] 3
        [3, 18446744073709551615] 2 = some r2 ∧
      r1.take (2 + 3) = r2.take (2 + 3) :=
  ⟨by decide, bn_mul_normal_comm 8 8 _ _ 2 3 5 (by decide) rfl rfl (by decide) (by decide)
    (by decide)⟩

/-- C3. Zero-length operand: whatever the result buffer holds (at least `n` words),
`bn_mul_normal(r, A, n, B, 0)` returns with the first `n` words of `r` all zero, and so
does the symmetric call `bn_mul_normal(r, B, 0, A, n)`; other operand contents `A2`,
`B2` give the very same result buffer. -/
theorem bn_mul_normal_zero_length (k s : Nat) (mem a b a2 b2 : List Nat) (n : Nat)
    (hk : 0 < k) (hm : n ≤ mem.length) :
    (∃ r, bn_mul_normal k s mem a n b 0 = some r ∧ r.take n = List.replicate n 0 ∧
      bn_mul_normal k s mem a2 n b2 0 = some r) ∧
    (∃ r, bn_mul_normal k s mem b 0 a n = some r ∧ r.take n = List.replicate n 0 ∧
      bn_mul_normal k s mem b2 0 a2 n = some r) := by
  have hz : ∀ x y : List Nat, bn_mul_normal_ordered k s mem x n y 0
      = some (List.replicate n 0 ++ (mem.drop n).map (fun x => x % base k)) :=
    fun x y => bn_mul_normal_ordered_zero k s mem x n y hk hm
  have ht : (List.replicate n 0 ++ (mem.drop n).map (fun x => x % base k)).take n
      = List.replicate n 0 := List.take_left' (List.length_replicate _ _)
  constructor
  · refine ⟨_, ?_, ht, ?_⟩ <;> simp only [bn_mul_normal, Nat.not_lt_zero, if_false, hz]
  · refine ⟨_, ?_, ht, ?_⟩ <;>
    · unfold bn_mul_normal
      split
      · exact hz _ _
      · obtain rfl : n = 0 := by omega
        exact hz _ _

theorem bn_mul_normal_zero_length_witness :
    (0 < 8 ∧ 3 ≤ [11, 12, 13, 14, 15].length) ∧
    (∃ r, bn_mul_normal 8 8 [11, 12, 13, 14, 15] [1, 2, 3] 3 [] 0 = some r ∧
      r.take 3 = List.replicate 3 0 ∧
      bn_mul_normal 8 8 [11, 12, 13, 14, 15] [7, 8, 9] 3 [] 0 = some r) ∧
    (∃ r, bn_mul_normal 8 8 [11, 12, 13, 14, 15] [] 0 [1, 2, 3] 3 = some r ∧
      r.take 3 = List.replicate 3 0 ∧
      bn_mul_normal 8 8 [11, 12, 13, 14, 15] [] 0 [7, 8, 9] 3 = some r) :=
  ⟨by decide, bn_mul_normal_zero_length 8 8 _ _ _ _ _ 3 (by decide) (by decide)⟩

/-- C4. Carry propagation at the all-ones boundary: for `na, nb ≥ 1`, when every word
of `A` and of `B` is the maximum word value `B - 1`, the `na + nb` output words of
`bn_mul_normal` have value exactly `(B^na - 1) * (B^nb - 1) = B^(na+nb) - B^na - B^nb + 1`;
the top word `r[na+nb-1]` is `B - 2` when `min na nb = 1` and `B - 1` when
`min na nb ≥ 2`. -/
theorem bn_mul_normal_all_ones (k s : Nat) (mem : List Nat) (na nb : Nat) (hk : 0 < k)
    (hna : 1 ≤ na) (hnb : 1 ≤ nb) (hm : na + nb ≤ mem.length) :
    ∃ r, bn_mul_normal k s mem (List.replicate na (base k - 1)) na
        (List.replicate nb (base k - 1)) nb = some r ∧
      value (base k) (r.take (na + nb)) = (base k ^ na - 1) * (base k ^ nb - 1) ∧
      (base k ^ na - 1) * (base k ^ nb - 1)
        = base k ^ (na + nb) - base k ^ na - base k ^ nb + 1 ∧
      (min na nb = 1 → r[na + nb - 1]? = some (base k - 2)) ∧
      (2 ≤ min na nb → r[na + nb - 1]? = some (base k - 1)) := by
  have hB : 2 ≤ base k := two_le_base k hk
  have hpow : ∀ n, 1 ≤ n → 2 ≤ base k ^ n := fun n hn =>
    calc 2 ≤ base k := hB
      _ = base k ^ 1 := (pow_one _).symm
      _ ≤ base k ^ n := Nat.pow_le_pow_right (by omega) hn
  have hta : (List.replicate na (base k - 1)).take na = List.replicate na (base k - 1) := by
    simp
  have htb : (List.replicate nb (base k - 1)).take nb = List.replicate nb (base k - 1) := by
    simp
  obtain ⟨r, h1, h2⟩ := bn_mul_normal_take k s mem (List.replicate na (base k - 1)) na
    (List.replicate nb (base k - 1)) nb hk (by simp) (by simp) hm
    (by rw [hta]; exact wordsOk_replicate _ _ _ (by omega))
    (by rw [htb]; exact wordsOk_replicate _ _ _ (by omega))
  rw [hta, htb, value_replicate_max _ _ (by omega), value_replicate_max _ _ (by omega)] at h2
  have hlt : (base k ^ na - 1) * (base k ^ nb - 1) < base k ^ (na + nb) := by
    rw [pow_add]
    exact Nat.mul_lt_mul'' (by have := hpow na hna; omega) (by have := hpow nb hnb; omega)
  have htop : r[na + nb - 1]?
      = some ((base k ^ na - 1) * (base k ^ nb - 1) / base k ^ (na + nb - 1) % base k) := by
    have e : (r.take (na + nb))[na + nb - 1]? = r[na + nb - 1]? := by
      rw [List.getElem?_take, if_pos (by omega)]
    rw [← e, h2, toWords_getElem? _ _ _ _ (by omega)]
  refine ⟨r, h1, ?_, ?_, ?_, ?_⟩
  · rw [h2, value_toWords, Nat.mod_eq_of_lt hlt]
  · rw [all_ones_product _ _ (hpow na hna) (hpow nb hnb), pow_add]
  · intro hmin
    rw [htop]
    rcases Nat.le_total na nb with hle | hle
    · have h1 : na = 1 := by rw [Nat.min_eq_left hle] at hmin; exact hmin
      subst h1
      rw [pow_one, show 1 + nb - 1 = nb by omega, Nat.mul_comm, top_word_one _ _ hB hnb]
    · have h1 : nb = 1 := by rw [Nat.min_eq_right hle] at hmin; exact hmin
      subst h1
      rw [pow_one, Nat.add_sub_cancel, top_word_one _ _ hB hna]
  · intro hmin
    rw [htop, top_word_two _ _ _ hB (by omega) (by omega)]

theorem bn_mul_normal_all_ones_witness :
    (0 < 8 ∧ 1 ≤ 3 ∧ 1 ≤ 2 ∧ 3 + 2 ≤ [1, 2, 3, 4, 5, 6].length) ∧
    ∃ r, bn_mul_normal 8 8 [1, 2, 3, 4, 5, 6] (List.replicate 3 (base 8 - 1)) 3
        (List.replicate 2 (base 8 - 1)) 2 = some r ∧
      value (base 8) (r.take (3 + 2)) = (base 8 ^ 3 - 1) * (base 8 ^ 2 - 1) ∧
      (base 8 ^ 3 - 1) * (base 8 ^ 2 - 1) = base 8 ^ (3 + 2) - base 8 ^ 3 - base 8 ^ 2 + 1 ∧
      (min 3 2 = 1 → r[3 + 2 - 1]? = some (base 8 - 2)) ∧
      (2 ≤ min 3 2 → r[3 + 2 - 1]? = some (base 8 - 1)) :=
  ⟨by decide, bn_mul_normal_all_ones 8 8 _ 3 2 (by decide) (by decide) (by decide) (by decide)⟩

/-! ## Generic multiply: frame, batching, bounds -/

/-- C7. Frame of `bn_mul_normal`: on a result buffer of machine words with at least
`na + nb` words the call returns, the buffer keeps its length and every word at an
index `≥ na + nb` is the same after the call as before; in the zero-length case
(`min na nb = 0`) the result is the old buffer with its first `max na nb` words zeroed. -/
theorem bn_mul_normal_frame_words (k s : Nat) (mem a b : List Nat) (na nb : Nat) (hk : 0 < k)
    (hw : WordsOk (base k) mem) (ha : na ≤ a.length) (hb : nb ≤ b.length)
    (hm : na + nb ≤ mem.length) :
    ∃ r, bn_mul_normal k s mem a na b nb = some r ∧ r.length = mem.length ∧
      (∀ i, na + nb ≤ i → r[i]? = mem[i]?) ∧
      (min na nb = 0 → r = List.replicate (max na nb) 0 ++ mem.drop (max na nb)) := by
  obtain ⟨r, h1, h2, h3, h4⟩ := bn_mul_normal_frame k s mem a na b nb hk ha hb hm
  have hmap : (mem.drop (max na nb)).map (fun x => x % base k) = mem.drop (max na nb) :=
    map_mod_of_wordsOk _ _ (fun x hx => hw x (List.mem_of_mem_drop hx))
  rw [hmap] at h4
  have hdrop : r.drop (na + nb) = mem.drop (na + nb) := by
    rcases Nat.eq_zero_or_pos (min na nb) with h0 | hpos
    · have hmx : max na nb = na + nb := by
        rw [Nat.min_def] at h0; rw [Nat.max_def]; split at h0 <;> split <;> omega
      rw [h4 h0, hmx]
      have hl : (List.replicate (na + nb) (0 : Nat)).length = na + nb := List.length_replicate _ _
      nth_rewrite 1 [← hl]
      rw [List.drop_left]
    · exact h3 hpos
  refine ⟨r, h1, h2, ?_, h4⟩
  intro i hi
  obtain ⟨j, rfl⟩ : ∃ j, i = na + nb + j := ⟨i - (na + nb), by omega⟩
  rw [← List.getElem?_drop, ← List.getElem?_drop, hdrop]

theorem bn_mul_normal_frame_words_witness :
    (0 < 8 ∧ WordsOk (base 8) [11, 12, 13, 14, 15, 16] ∧ 2 ≤ [5, 6].length ∧ 1 ≤ [7].length ∧
      2 + 1 ≤ [11, 12, 13, 14, 15, 16].length) ∧
    ∃ r, bn_mul_normal 8 8 [11, 12, 13, 14, 15, 16] [5, 6] 2 [7] 1 = some r ∧
      r.length = [11, 12, 13, 14, 15, 16].length ∧
      (∀ i, 2 + 1 ≤ i → r[i]? = [11, 12, 13, 14, 15, 16][i]?) ∧
      (min 2 1 = 0 → r = List.replicate (max 2 1) 0 ++ [11, 12, 13, 14, 15, 16].drop (max 2 1)) :=
  ⟨by decide, bn_mul_normal_frame_words 8 8 _ _ _ 2 1 (by decide) (by decide) (by decide)
    (by decide) (by decide)⟩

/-- C8. Batching is unobservable: for `na, nb ≥ 1` the four-columns-per-iteration loop
of `bn_mul_normal` gives the same outcome (the same result buffer, or the same failure)
as the unbatched reference run on the operands in longer-first order. -/
theorem bn_mul_normal_batching (k s : Nat) (mem a b : List Nat) (na nb : Nat) (hna : 1 ≤ na)
    (hnb : 1 ≤ nb) :
    bn_mul_normal k s mem a na b nb =
      if na < nb then bn_mul_normal_unbatched k mem b nb a na
      else bn_mul_normal_unbatched k mem a na b nb := by
  have key : ∀ (x y : List Nat) (n m : Nat), 1 ≤ m →
      bn_mul_normal_ordered k s mem x n y m = bn_mul_normal_unbatched k mem x n y m := by
    intro x y n m hm
    have hcol : mulAddColumn k x n y 0 n 0 = fun i m => (do
        let w ← y[i]?
        let (m, c) ← GFp_bn_mul_add_words k m i x n w
        store m (i + n) [c]) := by
      funext i m
      simp only [mulAddColumn, Nat.zero_add, Nat.add_comm n i]
    unfold bn_mul_normal_ordered bn_mul_normal_unbatched
    simp only [show m ≠ 0 by omega, if_false, bn_mul_normal_loop_eq_forLoop, hcol, Nat.add_zero]
  unfold bn_mul_normal
  split
  · exact key b a nb na hna
  · exact key a b na nb hnb

theorem bn_mul_normal_batching_witness :
    (1 ≤ 2 ∧ 1 ≤ 7) ∧
    bn_mul_normal 8 8 (List.replicate 9 0) [5, 6] 2 [1, 2, 3, 4, 5, 6, 7] 7 =
      if 2 < 7 then bn_mul_normal_unbatched 8 (List.replicate 9 0) [1, 2, 3, 4, 5, 6, 7] 7 [5, 6] 2
      else bn_mul_normal_unbatched 8 (List.replicate 9 0) [5, 6] 2 [1, 2, 3, 4, 5, 6, 7] 7 :=
  ⟨by decide, bn_mul_normal_batching 8 8 _ _ _ 2 7 (by decide) (by decide)⟩

/-- C9. Bounds safety of `bn_mul_normal`: when the result buffer has at least `na + nb`
words and the operand buffers at least `na` and `nb` words, no access leaves its buffer:
the call returns. This holds in particular on buffers cut to exactly `na + nb`, `na`
and `nb` words, where any index of `r` that is `≥ na + nb`, of `a` that is `≥ na` or of
`b` that is `≥ nb` is out of range; on operands of machine words that confined run writes
the same first `na + nb` words as the run on the full buffers. -/
theorem bn_mul_normal_in_bounds (k s : Nat) (mem a b : List Nat) (na nb : Nat) (hk : 0 < k)
    (hm : na + nb ≤ mem.length) (ha : na ≤ a.length) (hb : nb ≤ b.length) :
    (bn_mul_normal k s mem a na b nb).isSome ∧
    (bn_mul_normal k s (mem.take (na + nb)) (a.take na) na (b.take nb) nb).isSome ∧
    (WordsOk (base k) (a.take na) → WordsOk (base k) (b.take nb) →
      ∃ r, bn_mul_normal k s mem a na b nb = some r ∧
        bn_mul_normal k s (mem.take (na + nb)) (a.take na) na (b.take nb) nb
          = some (r.take (na + nb))) := by
  have hlm : (mem.take (na + nb)).length = na + nb := by
    rw [List.length_take, Nat.min_eq_left hm]
  have hla : (a.take na).length = na := by rw [List.length_take, Nat.min_eq_left ha]
  have hlb : (b.take nb).length = nb := by rw [List.length_take, Nat.min_eq_left hb]
  obtain ⟨r1, h1, -⟩ := bn_mul_normal_frame k s mem a na b nb hk ha hb hm
  obtain ⟨r2, h2, hl2, -⟩ := bn_mul_normal_frame k s (mem.take (na + nb)) (a.take na) na
    (b.take nb) nb hk (by omega) (by omega) (by omega)
  refine ⟨by rw [h1]; rfl, by rw [h2]; rfl, ?_⟩
  intro hwa hwb
  obtain ⟨r3, h3, e3⟩ := bn_mul_normal_take k s mem a na b nb hk ha hb hm hwa hwb
  obtain ⟨r4, h4, e4⟩ := bn_mul_normal_take k s (mem.take (na + nb)) (a.take na) na
    (b.take nb) nb hk (by omega) (by omega) (by omega)
    (by rwa [List.take_take, Nat.min_self]) (by rwa [List.take_take, Nat.min_self])
  refine ⟨r3, h3, ?_⟩
  rw [h2] at h4
  cases h4
  rw [List.take_take, Nat.min_self, List.take_take, Nat.min_self] at e4
  rw [h2, e3, ← e4, ← hl2.trans hlm, List.take_length]

theorem bn_mul_normal_in_bounds_witness :
    (0 < 8 ∧ 5 + 6 ≤ (List.replicate 11 9).length ∧ 5 ≤ [1, 2, 3, 4, 5].length ∧
      6 ≤ [1, 2, 3, 4, 5, 6].length) ∧
    (bn_mul_normal 8 8 (List.replicate 11 9) [1, 2, 3, 4, 5] 5 [1, 2, 3, 4, 5, 6] 6).isSome ∧
    (bn_mul_normal 8 8 ((List.replicate 11 9).take (5 + 6)) ([1, 2, 3, 4, 5].take 5) 5
      ([1, 2, 3, 4, 5, 6].take 6) 6).isSome ∧
    (WordsOk (base 8) ([1, 2, 3, 4, 5].take 5) → WordsOk (base 8) ([1, 2, 3, 4, 5, 6].take 6) →
      ∃ r, bn_mul_normal 8 8 (List.replicate 11 9) [1, 2, 3, 4, 5] 5 [1, 2, 3, 4, 5, 6] 6 = some r ∧
        bn_mul_normal 8 8 ((List.replicate 11 9).take (5 + 6)) ([1, 2, 3, 4, 5].take 5) 5
          ([1, 2, 3, 4, 5, 6].take 6) 6 = some (r.take (5 + 6))) :=
  ⟨by decide, bn_mul_normal_in_bounds 8 8 _ _ _ 5 6 (by decide) (by decide) (by decide)
    (by decide)⟩

/-! ## The Montgomery entry point and its leaves -/

theorem modInverse_spec (x n : Nat) (hn : 0 < n) (hc : Nat.Coprime x n) :
    x * modInverse x n % n = 1 % n := by
  have hex : ∃ y, y ∈ List.range n ∧ decide (x * y % n = 1 % n) = true := by
    rcases Nat.lt_or_ge 1 n with h1 | h1
    · obtain ⟨m, hm⟩ := Nat.exists_mul_emod_eq_one_of_coprime hc h1
      refine ⟨m % n, List.mem_range.mpr (Nat.mod_lt _ hn), ?_⟩
      rw [decide_eq_true_eq, Nat.mul_mod_mod, hm, Nat.mod_eq_of_lt h1]
    · obtain rfl : n = 1 := by omega
      exact ⟨0, by simp, by simp⟩
  have hs := List.find?_isSome.mpr hex
  obtain ⟨z, hz⟩ := Option.isSome_iff_exists.mp hs
  have hp := List.find?_some hz
  unfold modInverse
  rw [hz, Option.getD_some]
  exact of_decide_eq_true hp

theorem coprime_base_pow (k num N : Nat) (hodd : N % 2 = 1) : Nat.Coprime (base k ^ num) N := by
  unfold base
  apply Nat.Coprime.pow_left
  apply Nat.Coprime.pow_left
  exact (Nat.Prime.coprime_iff_not_dvd Nat.prime_two).mpr (by omega)

/-- The scratch array after `OPENSSL_memset(rr, 0, num * 2 * sizeof(BN_ULONG))`. -/
theorem scratch_zeroed (k s num : Nat) (rr0 : List Nat) (hk : 0 < k) (hrr : rr0.length = num * 2) :
    (OPENSSL_memset s (wordsToBytes k rr0) 0 (num * 2 * k)).map (bytesToWords k)
      = some (List.replicate (num * 2) 0) := by
  rw [OPENSSL_memset_zero s _ _ (by rw [wordsToBytes_length, hrr]), Option.map_some',
    wordsToBytes_drop, bytesToWords_zeros _ _ _ hk, ← hrr, List.drop_length]
  simp [wordsToBytes, bytesToWords]

theorem GFp_bn_mul_comba8_eq (k : Nat) (r a b : List Nat) (ha : 8 ≤ a.length) (hb : 8 ≤ b.length)
    (hr : 16 ≤ r.length) :
    GFp_bn_mul_comba8 k r a b = some (toWords (base k) 16
      (value (base k) (a.take 8) * value (base k) (b.take 8)) ++ r.drop 16) := by
  simp [GFp_bn_mul_comba8, window, store, ha, hb, hr, toWords_length]

theorem GFp_bn_sqr_comba8_eq (k : Nat) (r a : List Nat) (ha : 8 ≤ a.length)
    (hr : 16 ≤ r.length) :
    GFp_bn_sqr_comba8 k r a = some (toWords (base k) 16
      (value (base k) (a.take 8) ^ 2) ++ r.drop 16) := by
  simp [GFp_bn_sqr_comba8, window, store, ha, hr, toWords_length]

theorem GFp_bn_from_montgomery_in_place_eq (k : Nat) (r : List Nat) (num_r : Nat) (a : List Nat)
    (num_a : Nat) (n : List Nat) (num_n n0 : Nat) (hr : num_r ≤ r.length)
    (ha : num_a ≤ a.length) (hn : num_n ≤ n.length) :
    GFp_bn_from_montgomery_in_place k r num_r a num_a n num_n n0 =
      some (toWords (base k) num_r (value (base k) (a.take num_a)
          * modInverse (base k ^ num_n) (value (base k) (n.take num_n))
          % value (base k) (n.take num_n)) ++ r.drop num_r) := by
  simp [GFp_bn_from_montgomery_in_place, window, store, hr, ha, hn, toWords_length]

/-- The multiply routine that `GFp_bn_mul_mont` selects, run on the scratch buffer `z`. -/
theorem GFp_bn_mul_mont_eq (k s : Nat) (heap : Nat → List Nat) (rr0 rp : List Nat)
    (ap bp np n0 num : Nat) (hk : 0 < k) (hrr : rr0.length = num * 2) (rr1 out : List Nat)
    (hmul : (if num = 8 then
        if ap = bp then GFp_bn_sqr_comba8 k (List.replicate (num * 2) 0) (heap ap)
        else GFp_bn_mul_comba8 k (List.replicate (num * 2) 0) (heap ap) (heap bp)
      else bn_mul_normal k s (List.replicate (num * 2) 0) (heap ap) num (heap bp) num) = some rr1)
    (hred : GFp_bn_from_montgomery_in_place k rp num rr1 (num * 2) (heap np) num n0 = some out) :
    GFp_bn_mul_mont k s heap rr0 rp ap bp np n0 num =
      some (out, [if num = 8 then
          if ap = bp then Call.sqr_comba8 (List.replicate (num * 2) 0) ap
          else Call.mul_comba8 (List.replicate (num * 2) 0) ap bp
        else Call.bn_mul_normal (List.replicate (num * 2) 0) ap num bp num,
        Call.from_montgomery num rr1 (num * 2) np num n0]) := by
  unfold GFp_bn_mul_mont
  rw [scratch_zeroed k s num rr0 hk hrr]
  simp only [Option.bind_eq_bind, Option.some_bind]
  by_cases h8 : num = 8
  · subst h8
    by_cases hp : ap = bp
    · simp only [hp, if_true] at hmul ⊢
      rw [hmul]
      simp only [Option.map_some', Option.some_bind]
      rw [hred]
      rfl
    · simp only [hp, if_true, if_false] at hmul ⊢
      rw [hmul]
      simp only [Option.map_some', Option.some_bind]
      rw [hred]
      rfl
  · simp only [h8, if_false] at hmul ⊢
    rw [hmul]
    simp only [Option.map_some', Option.some_bind]
    rw [hred]
    rfl

/-- Closed form of `bn_mul_normal` on a buffer of exactly `na + nb` words. -/
theorem bn_mul_normal_exact (k s : Nat) (mem a : List Nat) (na : Nat) (b : List Nat)
    (nb : Nat) (hk : 0 < k) (ha : a.length = na) (hb : b.length = nb)
    (hm : mem.length = na + nb) (hwa : WordsOk (base k) a) (hwb : WordsOk (base k) b) :
    bn_mul_normal k s mem a na b nb
      = some (toWords (base k) (na + nb) (value (base k) a * value (base k) b)) := by
  have hta : a.take na = a := by rw [← ha, List.take_length]
  have htb : b.take nb = b := by rw [← hb, List.take_length]
  obtain ⟨r, h1, h2⟩ := bn_mul_normal_take k s mem a na b nb hk (by omega) (by omega) (by omega)
    (by rwa [hta]) (by rwa [htb])
  obtain ⟨r2, h3, hl, -⟩ := bn_mul_normal_frame k s mem a na b nb hk (by omega) (by omega)
    (by omega)
  rw [h1] at h3
  cases h3
  rw [hta, htb] at h2
  rw [h1, ← h2, ← hm, ← hl, List.take_length]

/-- The scratch product of `GFp_bn_mul_mont` on well-formed `num`-word operands. -/
theorem GFp_bn_mul_mont_scratch (k s : Nat) (heap : Nat → List Nat) (ap bp num : Nat)
    (hk : 0 < k) (hla : (heap ap).length = num) (hlb : (heap bp).length = num)
    (hwa : WordsOk (base k) (heap ap)) (hwb : WordsOk (base k) (heap bp)) :
    (if num = 8 then
        if ap = bp then GFp_bn_sqr_comba8 k (List.replicate (num * 2) 0) (heap ap)
        else GFp_bn_mul_comba8 k (List.replicate (num * 2) 0) (heap ap) (heap bp)
      else bn_mul_normal k s (List.replicate (num * 2) 0) (heap ap) num (heap bp) num)
      = some (toWords (base k) (num * 2)
          (value (base k) (heap ap) * value (base k) (heap bp))) := by
  have hta : (heap ap).take num = heap ap := by rw [← hla, List.take_length]
  have htb : (heap bp).take num = heap bp := by rw [← hlb, List.take_length]
  by_cases h8 : num = 8
  · subst h8
    by_cases hp : ap = bp
    · rw [if_pos rfl, if_pos hp, GFp_bn_sqr_comba8_eq k _ _ (by omega) (by simp), hta, pow_two]
      nth_rewrite 2 [hp]
      simp
    · rw [if_pos rfl, if_neg hp, GFp_bn_mul_comba8_eq k _ _ _ (by omega) (by omega) (by simp),
        hta, htb]
      simp
  · rw [if_neg h8, bn_mul_normal_exact k s _ _ num _ num hk hla hlb (by simp; omega) hwa hwb,
      Nat.mul_two]

/-! ## Montgomery multiply: product, width boundary, dispatch -/

/-- C5. Montgomery product of `GFp_bn_mul_mont`, with the leaves as modelled from their
contracts: for `num ≥ 1`, an odd `num`-word modulus `N`, `n0 = -N⁻¹ mod B` and `num`-word
operands `A, B < N`, the call returns and writes to `rp[0 .. num)` the words of
`A * B * R⁻¹ mod N`, where `R = B ^ num` and `R⁻¹` is an inverse of `R` modulo `N`; so
the result, times `R`, is congruent to `A * B` modulo `N`, and it is below `N`. -/
theorem GFp_bn_mul_mont_product (k s : Nat) (heap : Nat → List Nat) (rr0 rp : List Nat)
    (ap bp np n0 num : Nat) (hk : 0 < k) (hnum : 1 ≤ num) (hrr : rr0.length = num * 2)
    (hrp : num ≤ rp.length) (hla : (heap ap).length = num) (hlb : (heap bp).length = num)
    (hln : (heap np).length = num) (hwa : WordsOk (base k) (heap ap))
    (hwb : WordsOk (base k) (heap bp)) (hwn : WordsOk (base k) (heap np))
    (hodd : value (base k) (heap np) % 2 = 1)
    (hn0 : n0 < base k ∧ (n0 * value (base k) (heap np) + 1) % base k = 0)
    (hA : value (base k) (heap ap) < value (base k) (heap np))
    (hB : value (base k) (heap bp) < value (base k) (heap np)) :
    ∃ out calls, GFp_bn_mul_mont k s heap rr0 rp ap bp np n0 num = some (out, calls) ∧
      out = toWords (base k) num (value (base k) (heap ap) * value (base k) (heap bp)
          * modInverse (base k ^ num) (value (base k) (heap np)) % value (base k) (heap np))
        ++ rp.drop num ∧
      value (base k) (out.take num) = value (base k) (heap ap) * value (base k) (heap bp)
          * modInverse (base k ^ num) (value (base k) (heap np)) % value (base k) (heap np) ∧
      base k ^ num * modInverse (base k ^ num) (value (base k) (heap np))
          % value (base k) (heap np) = 1 % value (base k) (heap np) ∧
      Nat.ModEq (value (base k) (heap np)) (value (base k) (out.take num) * base k ^ num)
        (value (base k) (heap ap) * value (base k) (heap bp)) ∧
      value (base k) (out.take num) < value (base k) (heap np) := by
  have htn : (heap np).take num = heap np := by rw [← hln, List.take_length]
  have hNpos : 0 < value (base k) (heap np) := by omega
  have hNlt : value (base k) (heap np) < base k ^ num := by
    have := value_lt _ _ hwn
    rwa [hln] at this
  have hinv := modInverse_spec (base k ^ num) (value (base k) (heap np)) hNpos
    (coprime_base_pow k num _ hodd)
  have hT : value (base k) (heap ap) * value (base k) (heap bp) < base k ^ (num * 2) := by
    have := value_mul_lt _ _ _ hwa hwb
    rwa [hla, hlb, ← Nat.mul_two] at this
  have hred := GFp_bn_from_montgomery_in_place_eq k rp num
    (toWords (base k) (num * 2) (value (base k) (heap ap) * value (base k) (heap bp)))
    (num * 2) (heap np) num n0 hrp (by rw [toWords_length]) (by omega)
  have htk : (toWords (base k) (num * 2)
      (value (base k) (heap ap) * value (base k) (heap bp))).take (num * 2)
        = toWords (base k) (num * 2) (value (base k) (heap ap) * value (base k) (heap bp)) := by
    nth_rewrite 1 [← toWords_length (base k) (num * 2)
      (value (base k) (heap ap) * value (base k) (heap bp))]
    rw [List.take_length]
  rw [htk, value_toWords, Nat.mod_eq_of_lt hT, htn] at hred
  have hval : value (base k) ((toWords (base k) num (value (base k) (heap ap)
      * value (base k) (heap bp) * modInverse (base k ^ num) (value (base k) (heap np))
        % value (base k) (heap np)) ++ rp.drop num).take num)
      = value (base k) (heap ap) * value (base k) (heap bp)
        * modInverse (base k ^ num) (value (base k) (heap np)) % value (base k) (heap np) := by
    rw [List.take_left' (toWords_length _ _ _), value_toWords, Nat.mod_eq_of_lt]
    exact Nat.lt_trans (Nat.mod_lt _ hNpos) hNlt
  refine ⟨_, _, GFp_bn_mul_mont_eq k s heap rr0 rp ap bp np n0 num hk hrr _ _
    (GFp_bn_mul_mont_scratch k s heap ap bp num hk hla hlb hwa hwb) hred, rfl, hval, hinv, ?_, ?_⟩
  · rw [hval]
    unfold Nat.ModEq
    rw [Nat.mod_mul_mod, Nat.mul_assoc, Nat.mul_comm (modInverse _ _), Nat.mul_mod, hinv,
      ← Nat.mul_mod, Nat.mul_one]
  · rw [hval]
    exact Nat.mod_lt _ hNpos

theorem GFp_bn_mul_mont_product_witness :
    (0 < 8 ∧ 1 ≤ 1 ∧ [123, 456].length = 1 * 2 ∧ 1 ≤ [0].length ∧ (heap97 0).length = 1 ∧
      (heap97 1).length = 1 ∧ (heap97 2).length = 1 ∧ WordsOk (base 8) (heap97 0) ∧
      WordsOk (base 8) (heap97 1) ∧ WordsOk (base 8) (heap97 2) ∧
      value (base 8) (heap97 2) % 2 = 1 ∧
      (6656041676080766047 < base 8 ∧
        (6656041676080766047 * value (base 8) (heap97 2) + 1) % base 8 = 0) ∧
      value (base 8) (heap97 0) < value (base 8) (heap97 2) ∧
      value (base 8) (heap97 1) < value (base 8) (heap97 2)) ∧
    (∃ out calls, GFp_bn_mul_mont 8 8 heap97 [123, 456] [0] 0 1 2 6656041676080766047 1
        = some (out, calls) ∧
      out = toWords (base 8) 1 (value (base 8) (heap97 0) * value (base 8) (heap97 1)
          * modInverse (base 8 ^ 1) (value (base 8) (heap97 2)) % value (base 8) (heap97 2))
        ++ [0].drop 1 ∧
      value (base 8) (out.take 1) = value (base 8) (heap97 0) * value (base 8) (heap97 1)
          * modInverse (base 8 ^ 1) (value (base 8) (heap97 2)) % value (base 8) (heap97 2) ∧
      base 8 ^ 1 * modInverse (base 8 ^ 1) (value (base 8) (heap97 2))
          % value (base 8) (heap97 2) = 1 % value (base 8) (heap97 2) ∧
      Nat.ModEq (value (base 8) (heap97 2)) (value (base 8) (out.take 1) * base 8 ^ 1)
        (value (base 8) (heap97 0) * value (base 8) (heap97 1)) ∧
      value (base 8) (out.take 1) < value (base 8) (heap97 2)) ∧
    GFp_bn_from_montgomery_in_place 8 [0] 1
      (toWords (base 8) 1 (value (base 8) (heap97 0) * value (base 8) (heap97 1)
          * modInverse (base 8 ^ 1) (value (base 8) (heap97 2)) % value (base 8) (heap97 2))
        ++ [0]) 2 (heap97 2) 1 6656041676080766047 = some [30] :=
  ⟨by decide, GFp_bn_mul_mont_product 8 8 heap97 _ _ 0 1 2 6656041676080766047 1 (by decide)
    (by decide) (by decide) (by decide) (by decide) (by decide) (by decide) (by decide)
    (by decide) (by decide) (by decide) (by decide) (by decide) (by decide), by decide⟩

/-- C6. Width-boundary equivalence: for 8-word operands the fixed-width multiply leaf
(exact product) writes into the zeroed 16-word scratch buffer word for word what
`bn_mul_normal(rr, A, 8, B, 8)` writes, and the fixed-width square leaf (exact square)
what `bn_mul_normal(rr, A, 8, A, 8)` writes; hence the scratch product `rr1` that
`GFp_bn_mul_mont` hands on for `num = 8` is the one `bn_mul_normal` would have produced. -/
theorem width_boundary_equivalence (k s : Nat) (heap : Nat → List Nat) (rr0 rp : List Nat)
    (ap bp np n0 : Nat) (hk : 0 < k) (hrr : rr0.length = 8 * 2) (hrp : 8 ≤ rp.length)
    (hla : (heap ap).length = 8) (hlb : (heap bp).length = 8) (hln : 8 ≤ (heap np).length)
    (hwa : WordsOk (base k) (heap ap)) (hwb : WordsOk (base k) (heap bp)) :
    GFp_bn_mul_comba8 k (List.replicate 16 0) (heap ap) (heap bp)
      = bn_mul_normal k s (List.replicate 16 0) (heap ap) 8 (heap bp) 8 ∧
    GFp_bn_sqr_comba8 k (List.replicate 16 0) (heap ap)
      = bn_mul_normal k s (List.replicate 16 0) (heap ap) 8 (heap ap) 8 ∧
    ∃ out rr1 c, GFp_bn_mul_mont k s heap rr0 rp ap bp np n0 8
        = some (out, [c, Call.from_montgomery 8 rr1 (8 * 2) np 8 n0]) ∧
      (ap ≠ bp → c = Call.mul_comba8 (List.replicate 16 0) ap bp ∧
        bn_mul_normal k s (List.replicate 16 0) (heap ap) 8 (heap bp) 8 = some rr1) ∧
      (ap = bp → c = Call.sqr_comba8 (List.replicate 16 0) ap ∧
        bn_mul_normal k s (List.replicate 16 0) (heap ap) 8 (heap ap) 8 = some rr1) := by
  have hta : (heap ap).take 8 = heap ap := by rw [← hla, List.take_length]
  have htb : (heap bp).take 8 = heap bp := by rw [← hlb, List.take_length]
  have hmul : GFp_bn_mul_comba8 k (List.replicate 16 0) (heap ap) (heap bp)
      = bn_mul_normal k s (List.replicate 16 0) (heap ap) 8 (heap bp) 8 := by
    rw [GFp_bn_mul_comba8_eq k _ _ _ (by omega) (by omega) (by simp), hta, htb,
      bn_mul_normal_exact k s _ _ 8 _ 8 hk hla hlb (by simp) hwa hwb]
    simp
  have hsqr : GFp_bn_sqr_comba8 k (List.replicate 16 0) (heap ap)
      = bn_mul_normal k s (List.replicate 16 0) (heap ap) 8 (heap ap) 8 := by
    rw [GFp_bn_sqr_comba8_eq k _ _ (by omega) (by simp), hta,
      bn_mul_normal_exact k s _ _ 8 _ 8 hk hla hla (by simp) hwa hwa, pow_two]
    simp
  refine ⟨hmul, hsqr, ?_⟩
  by_cases hp : ap = bp
  · have e : bn_mul_normal k s (List.replicate 16 0) (heap ap) 8 (heap ap) 8 = some
        (toWords (base k) (8 + 8) (value (base k) (heap ap) * value (base k) (heap ap))) :=
      bn_mul_normal_exact k s _ _ 8 _ 8 hk hla hla (by simp) hwa hwa
    have hred := GFp_bn_from_montgomery_in_place_eq k rp 8
      (toWords (base k) (8 + 8) (value (base k) (heap ap) * value (base k) (heap ap)))
      (8 * 2) (heap np) 8 n0 hrp (by rw [toWords_length]) hln
    have h := GFp_bn_mul_mont_eq k s heap rr0 rp ap bp np n0 8 hk hrr _ _
      (by rw [if_pos rfl, if_pos hp]; exact hsqr.trans e) hred
    rw [if_pos rfl, if_pos hp] at h
    exact ⟨_, _, _, h, fun hne => absurd hp hne, fun _ => ⟨rfl, e⟩⟩
  · have e : bn_mul_normal k s (List.replicate 16 0) (heap ap) 8 (heap bp) 8 = some
        (toWords (base k) (8 + 8) (value (base k) (heap ap) * value (base k) (heap bp))) :=
      bn_mul_normal_exact k s _ _ 8 _ 8 hk hla hlb (by simp) hwa hwb
    have hred := GFp_bn_from_montgomery_in_place_eq k rp 8
      (toWords (base k) (8 + 8) (value (base k) (heap ap) * value (base k) (heap bp)))
      (8 * 2) (heap np) 8 n0 hrp (by rw [toWords_length]) hln
    have h := GFp_bn_mul_mont_eq k s heap rr0 rp ap bp np n0 8 hk hrr _ _
      (by rw [if_pos rfl, if_neg hp]; exact hmul.trans e) hred
    rw [if_pos rfl, if_neg hp] at h
    exact ⟨_, _, _, h, fun _ => ⟨rfl, e⟩, fun heq => absurd heq hp⟩

theorem width_boundary_equivalence_witness :
    (0 < 8 ∧ [0, 0, 0, 0, 0, 0, 0, 0, 0, 0, 0, 0, 0, 0, 0, 0].length = 8 * 2 ∧
      8 ≤ [0, 0, 0, 0, 0, 0, 0, 0].length ∧ (heap8 0).length = 8 ∧ (heap8 2).length = 8 ∧
      8 ≤ (heap8 3).length ∧ WordsOk (base 8) (heap8 0) ∧ WordsOk (base 8) (heap8 2)) ∧
    (GFp_bn_mul_comba8 8 (List.replicate 16 0) (heap8 0) (heap8 2)
      = bn_mul_normal 8 8 (List.replicate 16 0) (heap8 0) 8 (heap8 2) 8 ∧
    GFp_bn_sqr_comba8 8 (List.replicate 16 0) (heap8 0)
      = bn_mul_normal 8 8 (List.replicate 16 0) (heap8 0) 8 (heap8 0) 8 ∧
    ∃ out rr1 c, GFp_bn_mul_mont 8 8 heap8 [0, 0, 0, 0, 0, 0, 0, 0, 0, 0, 0, 0, 0, 0, 0, 0]
        [0, 0, 0, 0, 0, 0, 0, 0] 0 2 3 7 8
        = some (out, [c, Call.from_montgomery 8 rr1 (8 * 2) 3 8 7]) ∧
      (0 ≠ 2 → c = Call.mul_comba8 (List.replicate 16 0) 0 2 ∧
        bn_mul_normal 8 8 (List.replicate 16 0) (heap8 0) 8 (heap8 2) 8 = some rr1) ∧
      (0 = 2 → c = Call.sqr_comba8 (List.replicate 16 0) 0 ∧
        bn_mul_normal 8 8 (List.replicate 16 0) (heap8 0) 8 (heap8 0) 8 = some rr1)) :=
  ⟨by decide, width_boundary_equivalence 8 8 heap8 _ _ 0 2 3 7 (by decide) (by decide)
    (by decide) (by decide) (by decide) (by decide) (by decide) (by decide)⟩

/-- C10. Dispatch of `GFp_bn_mul_mont`: exactly two calls are made. The first is the one
multiply routine, run on a scratch buffer of `2 * num` zero words: `bn_mul_normal` (with
`na = nb = num`) if and only if `num ≠ 8`; for `num = 8` the square leaf if and only if
`ap` and `bp` are the same address and the multiply leaf otherwise, whatever the
buffers hold. The second is Montgomery-Reduce on the scratch buffer `rr1` that this
routine left, with widths `2 * num` and `num`. -/
theorem GFp_bn_mul_mont_dispatch (k s : Nat) (heap : Nat → List Nat) (rr0 rp : List Nat)
    (ap bp np n0 num : Nat) (hk : 0 < k) (hrr : rr0.length = num * 2) (hrp : num ≤ rp.length)
    (hla : num ≤ (heap ap).length) (hlb : num ≤ (heap bp).length)
    (hln : num ≤ (heap np).length) :
    ∃ out rr1 c, GFp_bn_mul_mont k s heap rr0 rp ap bp np n0 num
        = some (out, [c, Call.from_montgomery num rr1 (num * 2) np num n0]) ∧
      c = (if num = 8 then
          if ap = bp then Call.sqr_comba8 (List.replicate (num * 2) 0) ap
          else Call.mul_comba8 (List.replicate (num * 2) 0) ap bp
        else Call.bn_mul_normal (List.replicate (num * 2) 0) ap num bp num) ∧
      ((∃ r a na b nb, c = Call.bn_mul_normal r a na b nb) ↔ num ≠ 8) ∧
      (num = 8 → ((∃ r a, c = Call.sqr_comba8 r a) ↔ ap = bp)) ∧
      (num = 8 → ((∃ r a b, c = Call.mul_comba8 r a b) ↔ ap ≠ bp)) ∧
      (if num = 8 then
          if ap = bp then GFp_bn_sqr_comba8 k (List.replicate (num * 2) 0) (heap ap)
          else GFp_bn_mul_comba8 k (List.replicate (num * 2) 0) (heap ap) (heap bp)
        else bn_mul_normal k s (List.replicate (num * 2) 0) (heap ap) num (heap bp) num)
        = some rr1 ∧
      GFp_bn_from_montgomery_in_place k rp num rr1 (num * 2) (heap np) num n0 = some out := by
  have hmul : ∃ rr1, (if num = 8 then
          if ap = bp then GFp_bn_sqr_comba8 k (List.replicate (num * 2) 0) (heap ap)
          else GFp_bn_mul_comba8 k (List.replicate (num * 2) 0) (heap ap) (heap bp)
        else bn_mul_normal k s (List.replicate (num * 2) 0) (heap ap) num (heap bp) num)
        = some rr1 ∧ rr1.length = num * 2 := by
    by_cases h8 : num = 8
    · subst h8
      by_cases hp : ap = bp
      · rw [if_pos rfl, if_pos hp]
        exact ⟨_, GFp_bn_sqr_comba8_eq k _ _ hla (by simp), by simp [toWords_length]⟩
      · rw [if_pos rfl, if_neg hp]
        exact ⟨_, GFp_bn_mul_comba8_eq k _ _ _ hla hlb (by simp), by simp [toWords_length]⟩
    · rw [if_neg h8]
      obtain ⟨m1, h1, h2, -⟩ := bn_mul_normal_frame k s (List.replicate (num * 2) 0) (heap ap)
        num (heap bp) num hk hla hlb (by simp; omega)
      exact ⟨m1, h1, by simpa using h2⟩
  obtain ⟨rr1, hm1, hl1⟩ := hmul
  have hred := GFp_bn_from_montgomery_in_place_eq k rp num rr1 (num * 2) (heap np) num n0 hrp
    (by omega) hln
  refine ⟨_, rr1, _, GFp_bn_mul_mont_eq k s heap rr0 rp ap bp np n0 num hk hrr rr1 _ hm1 hred,
    rfl, ?_, ?_, ?_, hm1, hred⟩
  · by_cases h8 : num = 8
    · simp only [h8, if_true, ne_eq, not_true, iff_false]
      split <;> simp
    · simp [h8]
  · intro h8
    by_cases hp : ap = bp <;> simp [h8, hp]
  · intro h8
    by_cases hp : ap = bp <;> simp [h8, hp]

theorem GFp_bn_mul_mont_dispatch_witness :
    (0 < 8 ∧ [5, 6, 7, 8, 9, 10, 11, 12, 13, 14, 15, 16, 17, 18, 19, 20].length = 8 * 2 ∧
      8 ≤ [0, 0, 0, 0, 0, 0, 0, 0].length ∧ 8 ≤ (heap8 0).length ∧ 8 ≤ (heap8 1).length ∧
      8 ≤ (heap8 3).length) ∧
    ∃ out rr1 c, GFp_bn_mul_mont 8 8 heap8
        [5, 6, 7, 8, 9, 10, 11, 12, 13, 14, 15, 16, 17, 18, 19, 20] [0, 0, 0, 0, 0, 0, 0, 0]
        0 1 3 7 8 = some (out, [c, Call.from_montgomery 8 rr1 (8 * 2) 3 8 7]) ∧
      c = (if 8 = 8 then
          if 0 = 1 then Call.sqr_comba8 (List.replicate (8 * 2) 0) 0
          else Call.mul_comba8 (List.replicate (8 * 2) 0) 0 1
        else Call.bn_mul_normal (List.replicate (8 * 2) 0) 0 8 1 8) ∧
      ((∃ r a na b nb, c = Call.bn_mul_normal r a na b nb) ↔ 8 ≠ 8) ∧
      (8 = 8 → ((∃ r a, c = Call.sqr_comba8 r a) ↔ 0 = 1)) ∧
      (8 = 8 → ((∃ r a b, c = Call.mul_comba8 r a b) ↔ 0 ≠ 1)) ∧
      (if 8 = 8 then
          if 0 = 1 then GFp_bn_sqr_comba8 8 (List.replicate (8 * 2) 0) (heap8 0)
          else GFp_bn_mul_comba8 8 (List.replicate (8 * 2) 0) (heap8 0) (heap8 1)
        else bn_mul_normal 8 8 (List.replicate (8 * 2) 0) (heap8 0) 8 (heap8 1) 8)
        = some rr1 ∧
      GFp_bn_from_montgomery_in_place 8 [0, 0, 0, 0, 0, 0, 0, 0] 8 rr1 (8 * 2) (heap8 3) 8 7
        = some out :=
  ⟨by decide, GFp_bn_mul_mont_dispatch 8 8 heap8 _ _ 0 1 3 7 8 (by decide) (by decide)
    (by decide) (by decide) (by decide) (by decide)⟩

/-! ## The bounded loop agrees with the loop by well-founded recursion -/

theorem decSizeT_eq (s n : Nat) (h1 : 1 ≤ n) (h2 : n < 2 ^ (8 * s)) : decSizeT s n = n - 1 := by
  unfold decSizeT
  rw [show n + 2 ^ (8 * s) - 1 = (n - 1) + 2 ^ (8 * s) by omega, Nat.add_mod_right,
    Nat.mod_eq_of_lt (by omega)]

/-- With enough fuel the bounded loop, entered with a counter between 1 and `SIZE_MAX`,
ends with the outcome of the loop defined by well-founded recursion. -/
theorem bn_mul_normal_loop_fuel_eq (k s : Nat) (a : List Nat) (na : Nat) (b : List Nat) :
    ∀ (fuel nb : Nat) (mem : List Nat) (r rr b0 : Nat), 1 ≤ nb → nb < 2 ^ (8 * s) →
      (nb + 3) / 4 ≤ fuel →
      bn_mul_normal_loop_fuel k s a na b fuel mem r rr b0 nb
        = some (bn_mul_normal_loop k a na b mem r rr b0 nb) := by
  intro fuel
  induction fuel with
  | zero => intro nb mem r rr b0 h1 h2 hf; omega
  | succ fuel ih =>
    intro nb mem r rr b0 h1 h2 hf
    rw [bn_mul_normal_loop_unfold]
    unfold bn_mul_normal_loop_fuel
    simp only [decSizeT_eq s nb h1 h2]
    by_cases c1 : nb - 1 = 0
    · simp [c1]
    simp only [c1, if_false]
    cases mulAddColumn k a na b r rr b0 1 mem with
    | none => rfl
    | some m1 =>
      simp only [Option.some_bind, Option.bind_eq_bind, decSizeT_eq s (nb - 1) (by omega) (by omega)]
      by_cases c2 : nb - 1 - 1 = 0
      · simp [c2]
      simp only [c2, if_false]
      cases mulAddColumn k a na b r rr b0 2 m1 with
      | none => rfl
      | some m2 =>
        simp only [Option.some_bind, decSizeT_eq s (nb - 1 - 1) (by omega) (by omega)]
        by_cases c3 : nb - 1 - 1 - 1 = 0
        · simp [c3]
        simp only [c3, if_false]
        cases mulAddColumn k a na b r rr b0 3 m2 with
        | none => rfl
        | some m3 =>
          simp only [Option.some_bind, decSizeT_eq s (nb - 1 - 1 - 1) (by omega) (by omega)]
          by_cases c4 : nb - 1 - 1 - 1 - 1 = 0
          · simp [c4]
          simp only [c4, if_false]
          cases mulAddColumn k a na b r rr b0 4 m3 with
          | none => rfl
          | some m4 =>
            simp only [Option.some_bind]
            exact ih _ m4 _ _ _ (by omega) (by omega) (by omega)

theorem bn_mul_normal_ordered_fuel_eq (k s fuel : Nat) (mem a : List Nat) (na : Nat)
    (b : List Nat) (nb : Nat) (hnb : nb < 2 ^ (8 * s)) (hf : (nb + 3) / 4 ≤ fuel) :
    bn_mul_normal_ordered_fuel k s fuel mem a na b nb
      = some (bn_mul_normal_ordered k s mem a na b nb) := by
  unfold bn_mul_normal_ordered_fuel bn_mul_normal_ordered
  by_cases h0 : nb = 0
  · simp only [h0, if_true]
  · have h1 : 1 ≤ nb := Nat.pos_of_ne_zero h0
    simp only [h0, if_false, Nat.add_zero, Option.bind_eq_bind]
    cases hb : b[0]? with
    | none => rfl
    | some w =>
      simp only [Option.some_bind]
      cases hw : GFp_bn_mul_words k mem 0 a na w with
      | none => rfl
      | some p =>
        obtain ⟨m, c⟩ := p
        simp only [Option.some_bind]
        cases hs : store m na [c] with
        | none => rfl
        | some m1 =>
          simp only [Option.some_bind]
          exact bn_mul_normal_loop_fuel_eq k s a na b fuel nb m1 0 na 0 h1 hnb hf

theorem decSizeT_zero (s : Nat) : decSizeT s 0 = 2 ^ (8 * s) - 1 := by
  unfold decSizeT
  rw [Nat.zero_add]
  exact Nat.mod_eq_of_lt (Nat.sub_lt (pow_pos (by decide) _) (by decide))

/-! ## Termination, memory fill, initial contents of the result buffer -/

/-- C11. Termination of `bn_mul_normal`: for all `size_t` values `na`, `nb` the run
whose `for (;;)` loop is cut off after `fuel` iterations, and whose counter is the
wrapping `size_t`, is never cut off once `fuel` is at least `⌈min na nb / 4⌉`: it ends
with exactly the outcome of the embedding by well-founded recursion on the counter.
The counter is at least 1 whenever it is decremented, and a decrement of such a counter
is a strict decrease. -/
theorem bn_mul_normal_terminates (k s fuel : Nat) (mem a b : List Nat) (na nb : Nat)
    (hna : na < 2 ^ (8 * s)) (hnb : nb < 2 ^ (8 * s)) (hf : (min na nb + 3) / 4 ≤ fuel) :
    bn_mul_normal_fuel k s fuel mem a na b nb = some (bn_mul_normal k s mem a na b nb) ∧
    (∀ n, 1 ≤ n → n < 2 ^ (8 * s) → decSizeT s n < n) := by
  refine ⟨?_, fun n h1 h2 => by rw [decSizeT_eq s n h1 h2]; omega⟩
  unfold bn_mul_normal_fuel bn_mul_normal
  split
  · rename_i hlt
    exact bn_mul_normal_ordered_fuel_eq k s fuel mem b nb a na hna
      (by rwa [Nat.min_eq_left (Nat.le_of_lt hlt)] at hf)
  · rename_i hge
    exact bn_mul_normal_ordered_fuel_eq k s fuel mem a na b nb hnb
      (by rwa [Nat.min_eq_right (Nat.le_of_not_lt hge)] at hf)

theorem bn_mul_normal_terminates_witness :
    (9 < 2 ^ (8 * 8) ∧ 11 < 2 ^ (8 * 8) ∧ (min 9 11 + 3) / 4 ≤ 3) ∧
    bn_mul_normal_fuel 8 8 3 (List.replicate 20 0) [1, 2, 3, 4, 5, 6, 7, 8, 9] 9
        [1, 2, 3, 4, 5, 6, 7, 8, 9, 10, 11] 11
      = some (bn_mul_normal 8 8 (List.replicate 20 0) [1, 2, 3, 4, 5, 6, 7, 8, 9] 9
        [1, 2, 3, 4, 5, 6, 7, 8, 9, 10, 11] 11) ∧
    (∀ n, 1 ≤ n → n < 2 ^ (8 * 8) → decSizeT 8 n < n) :=
  ⟨by decide, bn_mul_normal_terminates 8 8 3 _ _ _ 9 11 (by decide) (by decide) (by decide)⟩

theorem store_splice (P buff X : List Nat) (p : Nat) (hP : P.length = p)
    (h : p + X.length ≤ buff.length) :
    store (P ++ buff.drop p) p X = some (P ++ X ++ buff.drop (p + X.length)) := by
  subst hP
  rw [store_eq _ _ _ (by simp; omega), List.take_left, List.drop_append, List.drop_drop]

theorem flatten_replicate_length (W : List Nat) (i : Nat) :
    ((List.replicate i W).flatten).length = i * W.length := by
  induction i with
  | zero => simp
  | succ i ih => rw [List.replicate_succ, List.flatten_cons, List.length_append, ih]; ring

theorem flatten_replicate_succ (W : List Nat) (i : Nat) :
    (List.replicate i W).flatten ++ W = (List.replicate (i + 1) W).flatten := by
  induction i with
  | zero => simp
  | succ i ih =>
    rw [List.replicate_succ, List.flatten_cons, List.append_assoc, ih, ← List.flatten_cons,
      ← List.replicate_succ]

/-- What `OPENSSL_memset(buff, v, sz)` writes: `sz / sizeof(size_t)` copies of the object
representation of `(size_t)v`, then `(uint8_t)v` in the remaining bytes below `sz`. -/
theorem OPENSSL_memset_eq (s : Nat) (buff : List Nat) (v : Int) (sz : Nat)
    (h : sz ≤ buff.length) :
    OPENSSL_memset s buff v sz =
      some ((List.replicate (sz / s) (toWords 256 s (toSizeT s v))).flatten
        ++ List.replicate (sz - sz / s * s) (toUInt8 v) ++ buff.drop sz) := by
  have hle : sz / s * s ≤ sz := Nat.div_mul_le_self sz s
  have hW : (toWords 256 s (toSizeT s v)).length = s := toWords_length _ _ _
  obtain ⟨m1, h1, -, hP1⟩ := forLoop_inv
    (fun i m => i ≤ sz / s ∧ m = (List.replicate i (toWords 256 s (toSizeT s v))).flatten
      ++ buff.drop (i * s))
    (fun i m => store m (i * s) (toWords 256 s (toSizeT s v))) (sz / s) 0 buff
    ⟨Nat.zero_le _, by simp⟩
    (by
      rintro i m - hi ⟨-, rfl⟩
      have hi1 : (i + 1) * s ≤ sz / s * s := Nat.mul_le_mul_right s (by omega)
      refine ⟨_, ?_, by omega, rfl⟩
      show store _ _ _ = _
      rw [store_splice _ buff _ (i * s) (by rw [flatten_replicate_length, hW])
        (by rw [hW, Nat.add_mul] at *; omega), flatten_replicate_succ, hW, Nat.add_mul,
        Nat.one_mul])
  rw [Nat.zero_add] at hP1
  obtain ⟨m2, h2, -, hP2⟩ := forLoop_inv
    (fun i m => i ≤ sz ∧ m = (List.replicate (sz / s) (toWords 256 s (toSizeT s v))).flatten
      ++ List.replicate (i - sz / s * s) (toUInt8 v) ++ buff.drop i)
    (fun i m => store m i [toUInt8 v]) (sz - sz / s * s) (sz / s * s) m1
    ⟨hle, by rw [hP1]; simp⟩
    (by
      rintro i m hlo hi ⟨-, rfl⟩
      refine ⟨_, store_splice _ buff [toUInt8 v] i
          (by simp only [List.length_append, flatten_replicate_length, hW,
                List.length_replicate]; omega)
          (by simp; omega), by omega, ?_⟩
      rw [show i + 1 - sz / s * s = (i - sz / s * s) + 1 by omega, List.replicate_succ',
        List.length_singleton]
      simp only [List.append_assoc])
  unfold OPENSSL_memset
  simp only [Nat.sub_zero, Option.bind_eq_bind]
  rw [h1, Option.some_bind, h2, hP2, Nat.add_sub_cancel' hle]

theorem toSizeT_small (s x : Nat) (hs : 1 ≤ s) (hx : x < 256) : toSizeT s (x : Int) = x := by
  unfold toSizeT
  have hp : (256 : Nat) ≤ 2 ^ (8 * s) := by
    calc (256 : Nat) = 2 ^ 8 := by norm_num
      _ ≤ 2 ^ (8 * s) := Nat.pow_le_pow_right (by decide) (by omega)
  have e : ((x : Int) % (2 : Int) ^ (8 * s)) = ((x % 2 ^ (8 * s) : Nat) : Int) := by
    push_cast
    rfl
  rw [e, Int.toNat_ofNat, Nat.mod_eq_of_lt (by omega)]

theorem toUInt8_small (x : Nat) (hx : x < 256) : toUInt8 (x : Int) = x := by
  unfold toUInt8
  have e : ((x : Int) % 256) = ((x % 256 : Nat) : Int) := by
    push_cast
    rfl
  rw [e, Int.toNat_ofNat, Nat.mod_eq_of_lt hx]

/-- For every fill value `1 ≤ x ≤ 255`, a `size_t` of at least two bytes and a count
that reaches one whole `size_t`, the byte at offset 1 is 0 after the call and not
`(uint8_t)x`. -/
theorem OPENSSL_memset_second_byte (s : Nat) (buff : List Nat) (x sz : Nat) (hs : 2 ≤ s)
    (hsz : s ≤ sz) (h : sz ≤ buff.length) (hx0 : 0 < x) (hx : x < 256) :
    ∃ r, OPENSSL_memset s buff (x : Int) sz = some r ∧ r[1]? = some 0 ∧
      toUInt8 (x : Int) ≠ 0 := by
  refine ⟨_, OPENSSL_memset_eq s buff x sz h, ?_, by rw [toUInt8_small x hx]; omega⟩
  obtain ⟨q, hq⟩ : ∃ q, sz / s = q + 1 :=
    ⟨sz / s - 1, by have := Nat.div_pos hsz (by omega : 0 < s); omega⟩
  have hW : (toWords 256 s (toSizeT s (x : Int))).length = s := toWords_length _ _ _
  rw [hq, List.replicate_succ, List.flatten_cons, List.append_assoc, List.append_assoc,
    List.getElem?_append_left (by rw [hW]; omega), toWords_getElem? _ _ _ _ (by omega),
    toSizeT_small s x (by omega) hx, pow_one, Nat.div_eq_of_lt hx]

/-- C13. Independence from the initial buffer contents: for operands of machine words
and any two result buffers of at least `na + nb` words, with arbitrary contents,
`bn_mul_normal` returns on both and leaves the same first `na + nb` words in both, the
very words it leaves in a zero-initialised buffer. -/
theorem bn_mul_normal_initial_contents (k s : Nat) (mem1 mem2 a b : List Nat) (na nb : Nat)
    (hk : 0 < k) (ha : a.length = na) (hb : b.length = nb) (hwa : WordsOk (base k) a)
    (hwb : WordsOk (base k) b) (h1 : na + nb ≤ mem1.length) (h2 : na + nb ≤ mem2.length) :
    ∃ r1 r2 r0, bn_mul_normal k s mem1 a na b nb = some r1 ∧
      bn_mul_normal k s mem2 a na b nb = some r2 ∧
      bn_mul_normal k s (List.replicate mem1.length 0) a na b nb = some r0 ∧
      r1.take (na + nb) = r2.take (na + nb) ∧ r1.take (na + nb) = r0.take (na + nb) := by
  have hta : a.take na = a := by rw [← ha, List.take_length]
  have htb : b.take nb = b := by rw [← hb, List.take_length]
  obtain ⟨r1, e1, t1⟩ := bn_mul_normal_take k s mem1 a na b nb hk (by omega) (by omega) h1
    (by rwa [hta]) (by rwa [htb])
  obtain ⟨r2, e2, t2⟩ := bn_mul_normal_take k s mem2 a na b nb hk (by omega) (by omega) h2
    (by rwa [hta]) (by rwa [htb])
  obtain ⟨r0, e0, t0⟩ := bn_mul_normal_take k s (List.replicate mem1.length 0) a na b nb hk
    (by omega) (by omega) (by simpa using h1) (by rwa [hta]) (by rwa [htb])
  exact ⟨r1, r2, r0, e1, e2, e0, by rw [t1, t2], by rw [t1, t0]⟩

theorem bn_mul_normal_initial_contents_witness :
    (0 < 8 ∧ [18446744073709551615, 5].length = 2 ∧ [7, 18446744073709551615, 1].length = 3 ∧
      WordsOk (base 8) [18446744073709551615, 5] ∧
      WordsOk (base 8) [7, 18446744073709551615, 1] ∧
      2 + 3 ≤ [11, 12, 13, 14, 15, 16].length ∧
      2 + 3 ≤ [18446744073709551615, 0, 99, 7, 1].length) ∧
    ∃ r1 r2 r0, bn_mul_normal 8 8 [11, 12, 13, 14, 15, 16] [18446744073709551615, 5] 2
        [7, 18446744073709551615, 1] 3 = some r1 ∧
      bn_mul_normal 8 8 [18446744073709551615, 0, 99, 7, 1] [18446744073709551615, 5] 2
        [7, 18446744073709551615, 1] 3 = some r2 ∧
      bn_mul_normal 8 8 (List.replicate [11, 12, 13, 14, 15, 16].length 0)
        [18446744073709551615, 5] 2 [7, 18446744073709551615, 1] 3 = some r0 ∧
      r1.take (2 + 3) = r2.take (2 + 3) ∧ r1.take (2 + 3) = r0.take (2 + 3) :=
  ⟨by decide, bn_mul_normal_initial_contents 8 8 _ _ _ _ 2 3 (by decide) rfl rfl (by decide)
    (by decide) (by decide) (by decide)⟩

/-- The multiply routine selected by `GFp_bn_mul_mont` returns on the zeroed scratch
buffer, with a scratch buffer of `2 * num` words. -/
theorem GFp_bn_mul_mont_multiply_some (k s : Nat) (heap : Nat → List Nat) (ap bp num : Nat)
    (hk : 0 < k) (hla : num ≤ (heap ap).length) (hlb : num ≤ (heap bp).length) :
    ∃ rr1, (if num = 8 then
          if ap = bp then GFp_bn_sqr_comba8 k (List.replicate (num * 2) 0) (heap ap)
          else GFp_bn_mul_comba8 k (List.replicate (num * 2) 0) (heap ap) (heap bp)
        else bn_mul_normal k s (List.replicate (num * 2) 0) (heap ap) num (heap bp) num)
        = some rr1 ∧ rr1.length = num * 2 := by
  by_cases h8 : num = 8
  · subst h8
    by_cases hp : ap = bp
    · rw [if_pos rfl, if_pos hp]
      exact ⟨_, GFp_bn_sqr_comba8_eq k _ _ hla (by simp), by simp [toWords_length]⟩
    · rw [if_pos rfl, if_neg hp]
      exact ⟨_, GFp_bn_mul_comba8_eq k _ _ _ hla hlb (by simp), by simp [toWords_length]⟩
  · rw [if_neg h8]
    obtain ⟨m1, h1, h2, -⟩ := bn_mul_normal_frame k s (List.replicate (num * 2) 0) (heap ap)
      num (heap bp) num hk hla hlb (by simp; omega)
    exact ⟨m1, h1, by simpa using h2⟩

/-- C14. Zero fill by `OPENSSL_memset`: for every byte count `sz` within the buffer,
multiple of `sizeof(size_t)` or not, `OPENSSL_memset(buff, 0, sz)` returns, each of the
first `sz` bytes is zero and every byte at offset `≥ sz` is unchanged. Consequently the
scratch array of `GFp_bn_mul_mont` is `2 * num` zero words after its `OPENSSL_memset`,
and that is the scratch buffer handed to the first call, the multiply routine. -/
theorem OPENSSL_memset_zero_fill (k s : Nat) (buff : List Nat) (sz : Nat)
    (heap : Nat → List Nat) (rr0 rp : List Nat) (ap bp np n0 num : Nat)
    (hsz : sz ≤ buff.length) (hk : 0 < k) (hrr : rr0.length = num * 2)
    (hrp : num ≤ rp.length) (hla : num ≤ (heap ap).length) (hlb : num ≤ (heap bp).length)
    (hln : num ≤ (heap np).length) :
    (∃ r, OPENSSL_memset s buff 0 sz = some r ∧ r.length = buff.length ∧
      (∀ i, i < sz → r[i]? = some 0) ∧ (∀ i, sz ≤ i → r[i]? = buff[i]?)) ∧
    (OPENSSL_memset s (wordsToBytes k rr0) 0 (num * 2 * k)).map (bytesToWords k)
      = some (List.replicate (num * 2) 0) ∧
    ∃ out c rest, GFp_bn_mul_mont k s heap rr0 rp ap bp np n0 num = some (out, c :: rest) ∧
      c.scratch = List.replicate (num * 2) 0 := by
  refine ⟨⟨_, OPENSSL_memset_zero s buff sz hsz, ?_, ?_, ?_⟩,
    scratch_zeroed k s num rr0 hk hrr, ?_⟩
  · simp only [List.length_append, List.length_replicate, List.length_drop]
    omega
  · intro i hi
    rw [List.getElem?_append_left (by rw [List.length_replicate]; exact hi),
      List.getElem?_replicate, if_pos hi]
  · intro i hi
    rw [List.getElem?_append_right (by rw [List.length_replicate]; exact hi),
      List.length_replicate, List.getElem?_drop, Nat.add_sub_cancel' hi]
  · obtain ⟨rr1, hm1, hl1⟩ := GFp_bn_mul_mont_multiply_some k s heap ap bp num hk hla hlb
    have hred := GFp_bn_from_montgomery_in_place_eq k rp num rr1 (num * 2) (heap np) num n0 hrp
      (by omega) hln
    refine ⟨_, _, _, GFp_bn_mul_mont_eq k s heap rr0 rp ap bp np n0 num hk hrr rr1 _ hm1 hred, ?_⟩
    by_cases h8 : num = 8
    · by_cases hp : ap = bp <;> simp [h8, hp, Call.scratch]
    · simp [h8, Call.scratch]

theorem OPENSSL_memset_zero_fill_witness :
    (11 ≤ [1, 2, 3, 4, 5, 6, 7, 8, 9, 10, 11, 12, 13].length ∧ 0 < 8 ∧
      [5, 6, 7, 8, 9, 10].length = 3 * 2 ∧ 3 ≤ [0, 0, 0].length ∧ 3 ≤ (heap8 0).length ∧
      3 ≤ (heap8 2).length ∧ 3 ≤ (heap8 3).length) ∧
    (∃ r, OPENSSL_memset 8 [1, 2, 3, 4, 5, 6, 7, 8, 9, 10, 11, 12, 13] 0 11 = some r ∧
      r.length = [1, 2, 3, 4, 5, 6, 7, 8, 9, 10, 11, 12, 13].length ∧
      (∀ i, i < 11 → r[i]? = some 0) ∧
      (∀ i, 11 ≤ i → r[i]? = [1, 2, 3, 4, 5, 6, 7, 8, 9, 10, 11, 12, 13][i]?)) ∧
    (OPENSSL_memset 8 (wordsToBytes 8 [5, 6, 7, 8, 9, 10]) 0 (3 * 2 * 8)).map (bytesToWords 8)
      = some (List.replicate (3 * 2) 0) ∧
    ∃ out c rest, GFp_bn_mul_mont 8 8 heap8 [5, 6, 7, 8, 9, 10] [0, 0, 0] 0 2 3 7 3
        = some (out, c :: rest) ∧
      c.scratch = List.replicate (3 * 2) 0 :=
  ⟨by decide, OPENSSL_memset_zero_fill 8 8 _ 11 heap8 _ _ 0 2 3 7 3 (by decide) (by decide)
    (by decide) (by decide) (by decide) (by decide) (by decide)⟩

end BnMul
